import Mathlib

/-!
Verification development for the leads-sync identity-resolution engine.

JavaScript strings are modelled as lists of Unicode scalar values
(`List Char`); JavaScript `null`/`undefined` inputs are modelled as
`none`.  Each definition is a shallow embedding of the function of the
same name in the repository's TypeScript sources (src/lib/normalize.ts,
src/lib/keys.ts, src/lib/db.ts, src/lib/clay.ts,
scripts/import-from-csv.ts).  Library primitives of the JavaScript
runtime (String.prototype.trim / toLowerCase / replace with the concrete
regexes used, the WHATWG URL host parser for plain http(s)-style inputs,
Buffer.byteLength) are modelled by small helper functions defined first.
-/

abbrev Str := List Char

/-- Code points of the whitespace characters relevant to
`String.prototype.trim` and the `\s` regex class (space, tab, LF, VT,
FF, CR, NBSP). -/
def isJsWs (c : Char) : Bool :=
  decide (c.toNat = 32 ∨ c.toNat = 9 ∨ c.toNat = 10 ∨ c.toNat = 11 ∨
    c.toNat = 12 ∨ c.toNat = 13 ∨ c.toNat = 160)

/-- Models `String.prototype.trim`. -/
def jsTrim (l : Str) : Str :=
  (l.dropWhile isJsWs).rdropWhile isJsWs

/-- Models `String.prototype.toLowerCase` on the character classes the
embedded functions inspect: ASCII letters and the Nordic/umlaut letters
Æ Ø Å Ä Ö Ü kept by `normalizeCompanyNameForMatching`. -/
def jsToLower (c : Char) : Char :=
  if 65 ≤ c.toNat ∧ c.toNat ≤ 90 then Char.ofNat (c.toNat + 32)
  else if c.toNat = 198 then 'æ'
  else if c.toNat = 216 then 'ø'
  else if c.toNat = 197 then 'å'
  else if c.toNat = 196 then 'ä'
  else if c.toNat = 214 then 'ö'
  else if c.toNat = 220 then 'ü'
  else c

def isDigitChar (c : Char) : Bool :=
  decide (48 ≤ c.toNat ∧ c.toNat ≤ 57)

def isLowerAlpha (c : Char) : Bool :=
  decide (97 ≤ c.toNat ∧ c.toNat ≤ 122)

def isLowerAlnum (c : Char) : Bool :=
  isLowerAlpha c || isDigitChar c

/-- Models `String.prototype.startsWith`. -/
def strStarts (pre l : Str) : Bool :=
  decide (l.take pre.length = pre)

/-- Models `String.prototype.includes`: some position of `hay` starts
the substring `needle`. -/
def listContains (needle : Str) : Str → Bool
  | [] => decide (needle = [])
  | c :: t => strStarts needle (c :: t) || listContains needle t

/-- Models `hostname.replace(/^www\d*\./i, "")` on an already-lowercased
hostname: one leading `www`, optional digits, and a dot are removed (a
non-global anchored regex removes at most one such prefix per call). -/
def stripWww (l : Str) : Str :=
  match l with
  | 'w' :: 'w' :: 'w' :: rest =>
    match rest.dropWhile isDigitChar with
    | '.' :: tail => tail
    | _ => l
  | _ => l

/-- Scans for the first `"://"` and returns what follows it, `none` when
the marker is absent. -/
def dropToAfterMarker : Str → Option Str
  | [] => none
  | c :: rest =>
    if c = ':' ∧ rest.take 2 = ['/', '/'] then some (rest.drop 2)
    else dropToAfterMarker rest

/-- The part of an authority after the last `'@'` (the whole string when
no `'@'` occurs). -/
def afterLastAt (l : Str) : Str :=
  (l.reverse.takeWhile (fun c => !decide (c = '@'))).reverse

/-- Models extracting `new URL(...).hostname.toLowerCase()` for
http(s)-style inputs: the text after `"://"` (or the whole string when a
scheme is absent, the caller having prepended `https://`), cut at the
first `/`, `?` or `#`, with userinfo and port removed, lowercased.  On
plain domain strings this coincides with the source's catch-branch
fallback (`replace(/^[a-z]+:\/\//i, "").split("/")[0].toLowerCase()`). -/
def urlHostLower (t : Str) : Str :=
  let a := (dropToAfterMarker t).getD t
  let auth := a.takeWhile (fun c => !decide (c = '/' ∨ c = '?' ∨ c = '#'))
  let host := (afterLastAt auth).takeWhile (fun c => !decide (c = ':'))
  host.map jsToLower

/-- Embeds `normalizeDomainHost` (src/lib/normalize.ts). -/
def normalizeDomainHost (input : Option Str) : Option Str :=
  match input with
  | none => none
  | some s =>
    if s = [] then none
    else
      let trimmed := jsTrim s
      if trimmed = [] then none
      else
        let hostname := urlHostLower trimmed
        let stripped := stripWww hostname
        if stripped = [] then none else some stripped

/-- Embeds `canonicalizeLinkedInUrl` (src/lib/normalize.ts).  The URL
constructor is modelled for http(s)-style inputs: inputs without a
`"://"` marker are treated as parse failures (they either throw or
produce an empty hostname, and in both cases the source returns null). -/
def canonicalizeLinkedInUrl (url : Option Str) : Option Str :=
  match url with
  | none => none
  | some s =>
    if s = [] then none
    else
      let trimmed := jsTrim s
      if trimmed = [] then none
      else
        let low := trimmed.map jsToLower
        match dropToAfterMarker low with
        | none => none
        | some a =>
          let auth := a.takeWhile (fun c => !decide (c = '/' ∨ c = '?' ∨ c = '#'))
          let host := (afterLastAt auth).takeWhile (fun c => !decide (c = ':'))
          if listContains ("linkedin.".toList) host then
            let host2 :=
              if listContains ("linkedin.com".toList) host then "www.linkedin.com".toList
              else host
            let path := (a.drop auth.length).takeWhile (fun c => !decide (c = '?' ∨ c = '#'))
            let scheme := low.takeWhile (fun c => !decide (c = ':'))
            some ((scheme ++ "://".toList ++ host2 ++ path).rdropWhile (fun c => decide (c = '/')))
          else none

/-- Embeds `normalizeEmail` (src/lib/normalize.ts). -/
def normalizeEmail (email : Option Str) : Option Str :=
  match email with
  | none => none
  | some s =>
    if s = [] then none
    else
      let trimmed := (jsTrim s).map jsToLower
      if trimmed = [] then none else some trimmed

/-- Embeds `normalizePhone` (src/lib/normalize.ts, the version with the
explicit country-code indicator check). -/
def normalizePhone (phone : Option Str) : Option Str :=
  match phone with
  | none => none
  | some s =>
    if s = [] then none
    else
      let trimmed := jsTrim s
      let digits := trimmed.filter isDigitChar
      if digits = [] then none
      else
        let hasCountryCodeIndicator :=
          strStarts ("+47".toList) trimmed || strStarts ("0047".toList) trimmed ||
          strStarts ("47 ".toList) trimmed || strStarts ("47-".toList) trimmed
        if hasCountryCodeIndicator && strStarts ("47".toList) digits && digits.length == 10 then
          some (digits.drop 2)
        else if strStarts ("0047".toList) digits && digits.length == 12 then
          some (digits.drop 4)
        else some digits

/-- Embeds `normalizeOrgnr` (src/lib/normalize.ts): `replace(/\s+/g, "")`
removes every whitespace character, making the subsequent `trim` a
no-op. -/
def normalizeOrgnr (orgnr : Option Str) : Option Str :=
  match orgnr with
  | none => none
  | some s =>
    if s = [] then none
    else
      let normalized := s.filter (fun c => !isJsWs c)
      if normalized = [] then none else some normalized

/-- Embeds `nameSlug` (src/lib/normalize.ts). -/
def nameSlug (name : Option Str) : Option Str :=
  match name with
  | none => none
  | some s =>
    if s = [] then none
    else
      let slug := ((((jsTrim s).map jsToLower).filter isLowerAlnum).take 80)
      if slug = [] then none else some slug

/-- Models `replace(/\s+/g, " ")`: every whitespace run becomes a single
space. -/
def collapseWs : Str → Str
  | [] => []
  | c :: rest =>
    if isJsWs c then ' ' :: collapseWs (rest.dropWhile isJsWs)
    else c :: collapseWs rest
termination_by l => l.length
decreasing_by
  · simp only [List.length_cons]
    exact Nat.lt_succ_of_le ((List.dropWhile_suffix _).sublist.length_le)
  · simp

/-- Embeds `normalizeNameForKey` (src/lib/normalize.ts).  The source has
no final empty-to-null coercion, so a whitespace-only input yields the
empty string (`some []`), which callers treat as falsy. -/
def normalizeNameForKey (name : Option Str) : Option Str :=
  match name with
  | none => none
  | some s =>
    if s = [] then none
    else some ((collapseWs ((jsTrim s).map jsToLower)).take 100)

/-- Characters kept by `replace(/[^a-z0-9æøåäöü]+/g, "")`. -/
def isKeptMatchChar (c : Char) : Bool :=
  isLowerAlnum c || decide (c.toNat = 230) || decide (c.toNat = 248) ||
  decide (c.toNat = 229) || decide (c.toNat = 228) || decide (c.toNat = 246) ||
  decide (c.toNat = 252)

/-- Models one end-anchored replacement `replace(/\s+WORD\.?$/i, "")`:
if the string ends with `WORD` (optionally followed by a dot when the
pattern allows it) preceded by at least one whitespace character, the
suffix and the whole preceding whitespace run are removed. -/
def suffixStripAt (l t : Str) : Option Str :=
  if t.isSuffixOf l then
    let pre := l.take (l.length - t.length)
    let pre2 := pre.rdropWhile isJsWs
    if pre2.length < pre.length then some pre2 else none
  else none

def stripOneSuffix (word : Str) (optDot : Bool) (l : Str) : Str :=
  match (if optDot then suffixStripAt l (word ++ ['.']) else none) with
  | some r => r
  | none =>
    match suffixStripAt l word with
    | some r => r
    | none => l

/-- The ordered legal-suffix list of `normalizeCompanyNameForMatching`;
the Bool marks patterns written with an optional trailing dot. -/
def companySuffixes : List (Str × Bool) :=
  [("asa".toList, false), ("a/s".toList, false), ("as".toList, false),
   ("ans".toList, false), ("da".toList, false), ("ba".toList, false),
   ("sa".toList, false), ("nuf".toList, false), ("ks".toList, false),
   ("corporation".toList, false), ("incorporated".toList, false),
   ("limited".toList, false), ("company".toList, false),
   ("corp".toList, true), ("inc".toList, true), ("ltd".toList, true),
   ("llc".toList, false), ("llp".toList, false), ("gmbh".toList, false),
   ("ag".toList, false), ("bv".toList, false), ("nv".toList, false),
   ("plc".toList, false), ("co".toList, true),
   ("group".toList, false), ("holding".toList, false), ("holdings".toList, false)]

/-- Embeds `normalizeCompanyNameForMatching` (src/lib/normalize.ts): the
source loops over every suffix pattern, applying each replacement in
turn to the running result. -/
def normalizeCompanyNameForMatching (name : Option Str) : Option Str :=
  match name with
  | none => none
  | some s =>
    if s = [] then none
    else
      let normalized := (jsTrim s).map jsToLower
      let afterSuffixes :=
        companySuffixes.foldl (fun acc p => stripOneSuffix p.1 p.2 acc) normalized
      let cleaned := afterSuffixes.filter isKeptMatchChar
      if cleaned = [] then none else some cleaned

inductive PersonRole where
  | decision_maker
  | recruiter
  | contact_person
  | other
deriving DecidableEq

/-- The decision-maker keyword list of `classifyPersonRole`. -/
def decisionMakerKeywords : List Str :=
  ["ceo".toList, "chief executive".toList, "chief executive officer".toList,
   "cto".toList, "chief technology".toList, "chief technical".toList,
   "cfo".toList, "chief financial".toList, "coo".toList,
   "chief operating".toList, "president".toList, "founder".toList,
   "owner".toList, "proprietor".toList, "director".toList,
   "managing director".toList, "general manager".toList, "vp".toList,
   "vice president".toList, "vice-president".toList, "head of".toList,
   "team lead".toList, "tech lead".toList, "engineering lead".toList,
   "project lead".toList, "manager".toList, "senior manager".toList,
   "partner".toList, "principal".toList, "executive".toList,
   "it manager".toList, "it director".toList, "it chef".toList,
   "daglig leder".toList, "sjef".toList, "direktør".toList,
   "administrerende direktør".toList, "adm. direktør".toList,
   "styreleder".toList, "eier".toList, "gründer".toList, "leder".toList,
   "avdelingsleder".toList, "prosjektleder".toList, "teamleder".toList,
   "områdeleder".toList, "regionleder".toList, "salgsdirektør".toList,
   "markedsdirektør".toList, "teknisk direktør".toList,
   "finansdirektør".toList, "operasjonsdirektør".toList,
   "produksjonsleder".toList, "butikksjef".toList, "kontorsjef".toList,
   "avdelingssjef".toList]

/-- The recruiter keyword list of `classifyPersonRole`. -/
def recruiterKeywords : List Str :=
  ["recruiter".toList, "recruitment".toList, "talent acquisition".toList,
   "talent".toList, "hiring".toList, "hr".toList, "human resources".toList,
   "people".toList, "people operations".toList, "people ops".toList,
   "staffing".toList, "sourcing".toList, "recruiting".toList,
   "talent manager".toList, "talent partner".toList,
   "rekrutteringsansvarlig".toList, "rekrutteringskonsulent".toList,
   "rekrutterer".toList, "rekruttering".toList, "talentansvarlig".toList,
   "talentkonsulent".toList, "ansettelsesansvarlig".toList,
   "ansettelsesleder".toList, "personalsjef".toList,
   "personalspesialist".toList, "hr-sjef".toList, "hr-konsulent".toList,
   "hr-spesialist".toList, "personalkonsulent".toList,
   "ansettelseskonsulent".toList]

/-- Embeds `classifyPersonRole` (src/lib/normalize.ts): keyword scan via
`String.prototype.includes`, decision-maker keywords first, default
`contact_person`. -/
def classifyPersonRole (title : Option Str) : PersonRole :=
  match title with
  | none => PersonRole.contact_person
  | some s =>
    if s = [] then PersonRole.contact_person
    else
      let normalizedTitle := jsTrim (s.map jsToLower)
      if decisionMakerKeywords.any (fun kw => listContains kw normalizedTitle) then
        PersonRole.decision_maker
      else if recruiterKeywords.any (fun kw => listContains kw normalizedTitle) then
        PersonRole.recruiter
      else PersonRole.contact_person

/-- The scraper placeholder host excluded from identity matching. -/
def finnNoHost : Str := "finn.no".toList

/-- Embeds `buildCompanyKey` (src/lib/keys.ts); the source's thrown
`Unable to derive company_key` error is modelled as `none`. -/
def buildCompanyKey (orgnr clean_domain domain_host name : Option Str) : Option Str :=
  match normalizeOrgnr orgnr with
  | some k => some k
  | none =>
    let p2 :=
      match clean_domain with
      | some cd =>
        if cd = [] then none
        else
          match normalizeDomainHost (some cd) with
          | some d => if d = finnNoHost then none else some d
          | none => none
      | none => none
    match p2 with
    | some d => some d
    | none =>
      match normalizeDomainHost domain_host with
      | some d =>
        if d = finnNoHost then
          match nameSlug name with
          | some slug => some slug
          | none => none
        else some d
      | none =>
        match nameSlug name with
        | some slug => some slug
        | none => none

def firstSome : List (Option Str) → Option Str
  | [] => none
  | o :: rest =>
    match o with
    | some v => some v
    | none => firstSome rest

/-- The four company-key candidates in the priority order stated by the
specification: stripped orgnr, normalized clean_domain unless it is the
placeholder, normalized domain_host unless it is the placeholder, name
slug. -/
def companyKeyCandidates (orgnr clean_domain domain_host name : Option Str) : List (Option Str) :=
  [normalizeOrgnr orgnr,
   (normalizeDomainHost clean_domain).bind (fun d => if d = finnNoHost then none else some d),
   (normalizeDomainHost domain_host).bind (fun d => if d = finnNoHost then none else some d),
   nameSlug name]

/-- Written from the specification's words: the company key is the first
non-empty candidate, and derivation fails exactly when all four
candidates are empty. -/
def buildCompanyKeySpec (orgnr clean_domain domain_host name : Option Str) : Option Str :=
  firstSome (companyKeyCandidates orgnr clean_domain domain_host name)

structure PersonKeyParams where
  linkedin_url : Option Str
  email : Option Str
  phone : Option Str
  company_domain : Option Str
  company_key : Option Str
  full_name : Option Str
  company_name : Option Str
deriving DecidableEq

/-- The company anchor of `buildPersonKey`:
`params.company_name ? normalizeNameForKey(params.company_name) : params.company_key`. -/
def personCompanyAnchor (p : PersonKeyParams) : Option Str :=
  match p.company_name with
  | some cn => if cn = [] then p.company_key else normalizeNameForKey (some cn)
  | none => p.company_key

/-- The company-name fallback branch of `buildPersonKey`
(src/lib/keys.ts, priority 5). -/
def personKeyFallback (p : PersonKeyParams) (personName : Str) : Option Str :=
  match personCompanyAnchor p with
  | some companyName =>
    if companyName = [] then none else some (companyName ++ '_' :: personName)
  | none => none

/-- Embeds `buildPersonKey` (src/lib/keys.ts); the thrown error is
modelled as `none`. -/
def buildPersonKey (p : PersonKeyParams) : Option Str :=
  match canonicalizeLinkedInUrl p.linkedin_url with
  | some l => some l
  | none =>
    match normalizeEmail p.email with
    | some e => some e
    | none =>
      match normalizePhone p.phone with
      | some ph => some ph
      | none =>
        match normalizeNameForKey p.full_name with
        | some personName =>
          if personName = [] then none
          else
            match normalizeDomainHost p.company_domain with
            | some d =>
              if d = finnNoHost then personKeyFallback p personName
              else some (d ++ '_' :: personName)
            | none => personKeyFallback p personName
        | none => none

/-- The truthy normalized person name: a present, non-empty name. -/
def personTruthyName (p : PersonKeyParams) : Option Str :=
  match normalizeNameForKey p.full_name with
  | some nm => if nm = [] then none else some nm
  | none => none

/-- The five person-key candidates in the priority order stated by the
specification: LinkedIn, email, phone, `domain_name`, `company_name`
(or key) `_name`. -/
def personKeyCandidates (p : PersonKeyParams) : List (Option Str) :=
  [canonicalizeLinkedInUrl p.linkedin_url,
   normalizeEmail p.email,
   normalizePhone p.phone,
   (personTruthyName p).bind (fun nm =>
     (normalizeDomainHost p.company_domain).bind (fun d =>
       if d = finnNoHost then none else some (d ++ '_' :: nm))),
   (personTruthyName p).bind (fun nm =>
     (personCompanyAnchor p).bind (fun c =>
       if c = [] then none else some (c ++ '_' :: nm)))]

/-- Written from the specification's words: first available signal in
priority order; failure exactly when no candidate is available. -/
def buildPersonKeySpec (p : PersonKeyParams) : Option Str :=
  firstSome (personKeyCandidates p)

/-- Models `Buffer.byteLength(s, "utf8")` for a string of Unicode scalar
values: the sum of per-character UTF-8 sizes. -/
def charBytes (c : Char) : Nat :=
  if c.toNat < 128 then 1
  else if c.toNat < 2048 then 2
  else if c.toNat < 65536 then 3
  else 4

def utf8Len (l : Str) : Nat :=
  (l.map charBytes).sum

/-- The `CLAY_CELL_MAX_BYTES` constant of src/lib/clay.ts. -/
def CLAY_CELL_MAX_BYTES : Nat := 6000

/-- Models the backwards cutoff search of `truncateDescription`: starting
from the byte budget, decrement while the prefix of that many characters
still exceeds the budget. -/
def findCutoff (s : Str) : Nat → Nat
  | 0 => 0
  | c + 1 =>
    if utf8Len (s.take (c + 1)) > CLAY_CELL_MAX_BYTES then findCutoff s c
    else c + 1

/-- Models `String.prototype.lastIndexOf` for a two-character pattern:
the start index of the last occurrence. -/
def lastIdx2 (a b : Char) : Str → Option Nat
  | [] => none
  | c :: rest =>
    match lastIdx2 a b rest with
    | some i => some (i + 1)
    | none => if c = a ∧ rest.take 1 = [b] then some 0 else none

/-- `lastIndexOf` with the JavaScript `-1` convention. -/
def jsLastIdx2 (a b : Char) (l : Str) : Int :=
  match lastIdx2 a b l with
  | some i => (i : Int)
  | none => -1

/-- Embeds `truncateDescription` (src/lib/clay.ts).  The floating-point
comparisons `i > cutoff * 0.7` are modelled as the exact rational
comparison `10 * i > 7 * cutoff`. -/
def truncateDescription (description : Option Str) : Option Str :=
  match description with
  | none => none
  | some s =>
    if s = [] then none
    else if utf8Len s ≤ CLAY_CELL_MAX_BYTES then some s
    else
      let cutoff := findCutoff s CLAY_CELL_MAX_BYTES
      let truncated := s.take cutoff
      let lastParagraph := jsLastIdx2 '\n' '\n' truncated
      let truncated2 :=
        if 10 * lastParagraph > 7 * (cutoff : Int) then
          truncated.take lastParagraph.toNat
        else
          let lastSentence :=
            max (max (jsLastIdx2 '.' ' ' truncated) (jsLastIdx2 '.' '\n' truncated))
              (max (jsLastIdx2 '?' ' ' truncated) (jsLastIdx2 '!' ' ' truncated))
          if 10 * lastSentence > 7 * (cutoff : Int) then
            truncated.take (lastSentence.toNat + 1)
          else truncated
      some (jsTrim truncated2 ++ "\n\n[...]".toList)

structure CsvCompany where
  company_key : Str
  name : Option Str
  domain : Option Str
  clean_domain : Option Str
  orgnr : Option Str
  proff_url : Option Str
  industry : Option Str
  company_size : Option Str
  location : Option Str
  profit_before_tax : Option Str
  turnover : Option Str
deriving DecidableEq

/-- JavaScript truthiness of a nullable string. -/
def jsTruthy : Option Str → Bool
  | none => false
  | some s => decide (s ≠ [])

/-- `value || undefined`: collapses null and the empty string to
absent. -/
def truthyOpt (o : Option Str) : Option Str :=
  match o with
  | none => none
  | some s => if s = [] then none else some s

/-- Embeds the script-local `normalizeName` of
scripts/import-from-csv.ts (lowercase, strip non-alphanumerics; no
empty-to-null coercion). -/
def csvNormalizeName (s : Option Str) : Option Str :=
  match s with
  | none => none
  | some l => some ((l.map jsToLower).filter isLowerAlnum)

/-- A CSV company row after the normalization pass of
`deduplicateCompanies` (the spread `{...row, ...}` with the extra
`name_normalized` field). -/
structure DCsvRow where
  company_key : Str
  name : Option Str
  domain : Option Str
  clean_domain : Option Str
  orgnr : Option Str
  proff_url : Option Str
  industry : Option Str
  company_size : Option Str
  location : Option Str
  profit_before_tax : Option Str
  turnover : Option Str
  name_normalized : Option Str
deriving DecidableEq

def normalizeCsvRow (r : CsvCompany) : DCsvRow :=
  { company_key := r.company_key
    name := r.name
    domain := truthyOpt (normalizeDomainHost r.domain)
    clean_domain := truthyOpt (normalizeDomainHost r.clean_domain)
    orgnr := truthyOpt (normalizeOrgnr r.orgnr)
    proff_url := r.proff_url
    industry := r.industry
    company_size := r.company_size
    location := r.location
    profit_before_tax := r.profit_before_tax
    turnover := r.turnover
    name_normalized := truthyOpt (csvNormalizeName r.name) }

/-- Association-list lookup modelling `Map.prototype.get`. -/
def alGet {α : Type} (m : List (Str × α)) (k : Str) : Option α :=
  (m.find? (fun p => decide (p.1 = k))).map (fun p => p.2)

/-- Association-list write modelling `Map.prototype.set`: overwriting
keeps the original insertion position. -/
def alSet {α : Type} (m : List (Str × α)) (k : Str) (v : α) : List (Str × α) :=
  if m.any (fun p => decide (p.1 = k)) then
    m.map (fun p => if p.1 = k then (k, v) else p)
  else m ++ [(k, v)]

/-- `groups.get(key).push(row)` with the create-if-absent step. -/
def galPush (m : List (Str × List DCsvRow)) (k : Str) (r : DCsvRow) : List (Str × List DCsvRow) :=
  match alGet m k with
  | some rows => alSet m k (rows ++ [r])
  | none => m ++ [(k, [r])]

def idTagOrgnr : Str := "orgnr:".toList
def idTagCleanDomain : Str := "clean_domain:".toList
def idTagDomain : Str := "domain:".toList
def idTagName : Str := "name:".toList
def idTagKey : Str := "key:".toList

/-- One iteration of the grouping loop of `deduplicateCompanies`. -/
def dedupStep (acc : List (Str × List DCsvRow) × List (Str × Str)) (row : DCsvRow) :
    List (Str × List DCsvRow) × List (Str × Str) :=
  let groups := acc.1
  let idMap := acc.2
  let g1 := match row.orgnr with
    | some o => alGet idMap (idTagOrgnr ++ o)
    | none => none
  let g2 := match g1 with
    | some g => some g
    | none => match row.clean_domain with
      | some d => alGet idMap (idTagCleanDomain ++ d)
      | none => none
  let g3 := match g2 with
    | some g => some g
    | none => match row.domain with
      | some d => alGet idMap (idTagDomain ++ d)
      | none => none
  let g4 := match g3 with
    | some g => some g
    | none => match row.name_normalized with
      | some n => alGet idMap (idTagName ++ n)
      | none => none
  let groupKey := match g4 with
    | some g => g
    | none => match row.orgnr with
      | some o => idTagOrgnr ++ o
      | none => match row.clean_domain with
        | some d => idTagCleanDomain ++ d
        | none => match row.domain with
          | some d => idTagDomain ++ d
          | none => match row.name_normalized with
            | some n => idTagName ++ n
            | none => idTagKey ++ row.company_key
  let m1 := match row.orgnr with
    | some o => alSet idMap (idTagOrgnr ++ o) groupKey
    | none => idMap
  let m2 := match row.clean_domain with
    | some d => alSet m1 (idTagCleanDomain ++ d) groupKey
    | none => m1
  let m3 := match row.domain with
    | some d => alSet m2 (idTagDomain ++ d) groupKey
    | none => m2
  let m4 := match row.name_normalized with
    | some n => alSet m3 (idTagName ++ n) groupKey
    | none => m3
  (galPush groups groupKey row, m4)

/-- The completeness score of the merge phase. -/
def scoreRow (r : DCsvRow) : Nat :=
  (if jsTruthy r.orgnr then 4 else 0) + (if jsTruthy r.clean_domain then 3 else 0) +
  (if jsTruthy r.domain then 2 else 0) + (if jsTruthy r.name then 1 else 0)

/-- `duplicates.reduce(...)`: keeps the first row among those of maximal
score (a later row wins only with a strictly greater score). -/
def pickBest : DCsvRow → List DCsvRow → DCsvRow
  | best, [] => best
  | best, c :: rest => pickBest (if scoreRow c > scoreRow best then c else best) rest

/-- `duplicates.find(d => d.f)?.f || undefined`. -/
def firstTruthy (get : DCsvRow → Option Str) (l : List DCsvRow) : Option Str :=
  match l.find? (fun d => jsTruthy (get d)) with
  | some d => truthyOpt (get d)
  | none => none

/-- `best.f || duplicates.find(d => d.f)?.f || undefined`. -/
def jsOrOpt (a b : Option Str) : Option Str :=
  if jsTruthy a then a else truthyOpt b

/-- The merge phase of `deduplicateCompanies` for one group; the empty
case never occurs (groups always receive at least one row). -/
def mergeGroup (dups : List DCsvRow) : DCsvRow :=
  match dups with
  | [] =>
    { company_key := [], name := none, domain := none, clean_domain := none,
      orgnr := none, proff_url := none, industry := none, company_size := none,
      location := none, profit_before_tax := none, turnover := none,
      name_normalized := none }
  | [d] => d
  | d :: rest =>
    let best := pickBest d rest
    { best with
      orgnr := jsOrOpt best.orgnr (firstTruthy (fun x => x.orgnr) (d :: rest))
      clean_domain := jsOrOpt best.clean_domain (firstTruthy (fun x => x.clean_domain) (d :: rest))
      domain := jsOrOpt best.domain (firstTruthy (fun x => x.domain) (d :: rest))
      name := jsOrOpt best.name (firstTruthy (fun x => x.name) (d :: rest))
      proff_url := jsOrOpt best.proff_url (firstTruthy (fun x => x.proff_url) (d :: rest))
      industry := jsOrOpt best.industry (firstTruthy (fun x => x.industry) (d :: rest))
      company_size := jsOrOpt best.company_size (firstTruthy (fun x => x.company_size) (d :: rest))
      location := jsOrOpt best.location (firstTruthy (fun x => x.location) (d :: rest))
      profit_before_tax := jsOrOpt best.profit_before_tax (firstTruthy (fun x => x.profit_before_tax) (d :: rest))
      turnover := jsOrOpt best.turnover (firstTruthy (fun x => x.turnover) (d :: rest)) }

/-- Embeds `deduplicateCompanies` (scripts/import-from-csv.ts). -/
def deduplicateCompanies (rows : List CsvCompany) : List DCsvRow :=
  let normalizedRows := rows.map normalizeCsvRow
  let res := normalizedRows.foldl dedupStep ([], [])
  res.1.map (fun p => mergeGroup p.2)

/-- Models `String.prototype.split(",")`. -/
def splitComma : Str → List Str
  | [] => [[]]
  | c :: rest =>
    match splitComma rest with
    | [] => [[c]]
    | h :: t => if c = ',' then [] :: h :: t else (c :: h) :: t

/-- The source-set parse of `upsertJobPostSmart`:
`(existing.source || "").split(",").map(s => s.trim()).filter(Boolean)`. -/
def parseSources (o : Option Str) : List Str :=
  ((splitComma (o.getD [])).map jsTrim).filter (fun x => decide (x ≠ []))

/-- First-occurrence deduplication, modelling `new Set(list)` iterated
in insertion order. -/
def dedupAcc (seen : List Str) : List Str → List Str
  | [] => []
  | a :: as =>
    if a ∈ seen then dedupAcc seen as
    else a :: dedupAcc (a :: seen) as

def dedupFirst (l : List Str) : List Str :=
  dedupAcc [] l

/-- Lexicographic comparison by code point, modelling the default
`Array.prototype.sort` comparator on strings. -/
def strLe : Str → Str → Bool
  | [], _ => true
  | _ :: _, [] => false
  | a :: as, b :: bs =>
    if a.toNat < b.toNat then true
    else if b.toNat < a.toNat then false
    else strLe as bs

def sLe (a b : Str) : Prop := strLe a b = true

instance : DecidableRel sLe := fun a b => inferInstanceAs (Decidable (strLe a b = true))

/-- Models `Array.from(set).sort()`: the (unique, since the comparator
is a total order and the input duplicate-free) sorted permutation. -/
def jsSortStrings (l : List Str) : List Str :=
  l.insertionSort sLe

/-- Models `Array.prototype.join(",")`. -/
def joinComma : List Str → Str
  | [] => []
  | [x] => x
  | x :: y :: rest => x ++ ',' :: joinComma (y :: rest)

/-- The source-merge step of `upsertJobPostSmart` (src/lib/db.ts):
parse, deduplicate, add the trimmed new source when absent, sort, join
with commas, null when empty. -/
def mergeSources (existingSource newSource : Option Str) : Option Str :=
  let existingSources := dedupFirst (parseSources existingSource)
  let trimmedNew := newSource.map jsTrim
  let withNew :=
    match trimmedNew with
    | some t => if t ≠ [] ∧ t ∉ existingSources then existingSources ++ [t] else existingSources
    | none => existingSources
  let joined := joinComma (jsSortStrings withNew)
  if joined = [] then none else some joined

/-- The deduplicated source set of `mergeSources` (the `existingSources`
set after the conditional `add`), named for the proofs. -/
def mergeWithNew (existingSource : Option Str) (t : Str) : List Str :=
  if jsTrim t ≠ [] ∧ jsTrim t ∉ dedupFirst (parseSources existingSource)
  then dedupFirst (parseSources existingSource) ++ [jsTrim t]
  else dedupFirst (parseSources existingSource)

structure JobPostRecord where
  finn_id : Str
  company_id : Str
  finn_url : Str
  title : Option Str
  description : Option Str
  application_url : Option Str
  contact_email : Option Str
  location : Option Str
  employment_type : Option Str
  salary : Option Str
  publication_date : Option Str
  expiration_date : Option Str
  sector : Option Str
  industries : Option (List Str)
  position_functions : Option (List Str)
  language : Option Str
  company_logo_url : Option Str
  company_name : Option Str
  company_domain_host : Option Str
  source : Option Str
  raw_payload : Option Str
deriving DecidableEq

/-- A persisted `job_posts` row: the record columns plus the
store-generated primary key (modelled as a `Nat`). -/
structure JobPostRow where
  id : Nat
  finn_id : Str
  company_id : Str
  finn_url : Str
  title : Option Str
  description : Option Str
  application_url : Option Str
  contact_email : Option Str
  location : Option Str
  employment_type : Option Str
  salary : Option Str
  publication_date : Option Str
  expiration_date : Option Str
  sector : Option Str
  industries : Option (List Str)
  position_functions : Option (List Str)
  language : Option Str
  company_logo_url : Option Str
  company_name : Option Str
  company_domain_host : Option Str
  source : Option Str
  raw_payload : Option Str
deriving DecidableEq

def rowOfRecord (id : Nat) (r : JobPostRecord) : JobPostRow :=
  { id := id, finn_id := r.finn_id, company_id := r.company_id,
    finn_url := r.finn_url, title := r.title, description := r.description,
    application_url := r.application_url, contact_email := r.contact_email,
    location := r.location, employment_type := r.employment_type,
    salary := r.salary, publication_date := r.publication_date,
    expiration_date := r.expiration_date, sector := r.sector,
    industries := r.industries, position_functions := r.position_functions,
    language := r.language, company_logo_url := r.company_logo_url,
    company_name := r.company_name, company_domain_host := r.company_domain_host,
    source := r.source, raw_payload := r.raw_payload }

/-- `.select("id, source").eq("finn_id", ...).single()` against the
store, modelled as a list of rows with a unique `finn_id`. -/
def findRowByFinnId (st : List JobPostRow) (f : Str) : Option JobPostRow :=
  st.find? (fun r => decide (r.finn_id = f))

/-- Embeds `upsertJobPostSmart` (src/lib/db.ts).  The store is a row
list; the result carries the new store state, the row id, and the
`isNew` flag.  The found branch updates only the `source` column of the
matched row; the not-found branch inserts (the conflict-tolerant upsert
inserts here because the lookup just returned nothing). -/
def upsertJobPostSmart (nextId : Nat) (st : List JobPostRow) (record : JobPostRecord) :
    List JobPostRow × Nat × Bool :=
  match findRowByFinnId st record.finn_id with
  | some existing =>
    let merged := mergeSources existing.source record.source
    (st.map (fun r => if r.id = existing.id then { r with source := merged } else r),
     existing.id, false)
  | none => (st ++ [rowOfRecord nextId record], nextId, true)

/-- Repeated ingestion: each record is processed by `upsertJobPostSmart`
with a fresh candidate id. -/
def ingestAll (nextId : Nat) (st : List JobPostRow) : List JobPostRecord → List JobPostRow
  | [] => st
  | r :: rs => ingestAll (nextId + 1) (upsertJobPostSmart nextId st r).1 rs

structure CompanyRecord where
  company_key : Str
  name : Str
  domain : Option Str
  clean_domain : Option Str
  clean_name : Option Str
  orgnr : Option Str
  proff_url : Option Str
  industry : Option Str
  company_size : Option Str
  location : Option Str
  sector : Option Str
deriving DecidableEq

structure CompanyRow where
  id : Nat
  company_key : Str
  name : Str
  domain : Option Str
  clean_domain : Option Str
  clean_name : Option Str
  orgnr : Option Str
  proff_url : Option Str
  industry : Option Str
  company_size : Option Str
  location : Option Str
  sector : Option Str
deriving DecidableEq

/-- Embeds `findExistingCompany` (src/lib/db.ts): four store lookups in
strict priority order (orgnr, clean_domain excluding the placeholder,
clean_name, company_key equal to the name slug). -/
def findExistingCompany (st : List CompanyRow) (orgnr domain clean_domain name : Option Str) :
    Option (Nat × Str) :=
  let normalizedOrgnr := normalizeOrgnr orgnr
  let normalizedDomain := normalizeDomainHost (if jsTruthy clean_domain then clean_domain else domain)
  let normalizedCleanName := normalizeCompanyNameForMatching name
  let normalizedNameSlug := nameSlug name
  let q1 := match normalizedOrgnr with
    | some o => st.find? (fun (r : CompanyRow) => decide (r.orgnr = some o))
    | none => none
  match q1 with
  | some r => some (r.id, r.company_key)
  | none =>
    let q2 := match normalizedDomain with
      | some d =>
        if d = finnNoHost then none
        else st.find? (fun (r : CompanyRow) => decide (r.clean_domain = some d))
      | none => none
    match q2 with
    | some r => some (r.id, r.company_key)
    | none =>
      let q3 := match normalizedCleanName with
        | some cn => st.find? (fun (r : CompanyRow) => decide (r.clean_name = some cn))
        | none => none
      match q3 with
      | some r => some (r.id, r.company_key)
      | none =>
        match normalizedNameSlug with
        | some slug =>
          (st.find? (fun (r : CompanyRow) => decide (r.company_key = slug))).map (fun r => (r.id, r.company_key))
        | none => none

/-- The found-branch update of `upsertCompanySmart`: each field of
`updateData` is included only when the incoming value is truthy, so a
falsy incoming field leaves the stored value unchanged. -/
def applyCompanyUpdate (record : CompanyRecord) (cleanName : Option Str) (r : CompanyRow) : CompanyRow :=
  { r with
    name := if record.name ≠ [] then record.name else r.name
    domain := if jsTruthy record.domain then record.domain else r.domain
    clean_domain := if jsTruthy record.clean_domain then record.clean_domain else r.clean_domain
    clean_name := if jsTruthy cleanName then cleanName else r.clean_name
    orgnr := if jsTruthy record.orgnr then record.orgnr else r.orgnr
    proff_url := if jsTruthy record.proff_url then record.proff_url else r.proff_url
    industry := if jsTruthy record.industry then record.industry else r.industry
    company_size := if jsTruthy record.company_size then record.company_size else r.company_size
    location := if jsTruthy record.location then record.location else r.location
    sector := if jsTruthy record.sector then record.sector else r.sector }

def companyRowOfRecord (id : Nat) (record : CompanyRecord) (cleanName : Option Str) : CompanyRow :=
  { id := id, company_key := record.company_key, name := record.name,
    domain := record.domain, clean_domain := record.clean_domain,
    clean_name := if jsTruthy cleanName then cleanName else record.clean_name,
    orgnr := record.orgnr, proff_url := record.proff_url,
    industry := record.industry, company_size := record.company_size,
    location := record.location, sector := record.sector }

/-- Embeds `upsertCompanySmart` (src/lib/db.ts).  Result: new store
state, id, company_key, `isNew`.  The not-found branch is the
conflict-tolerant upsert on `company_key`: it inserts, or — in the race
case where a row with the same `company_key` already exists — overwrites
that row's supplied columns. -/
def upsertCompanySmart (nextId : Nat) (st : List CompanyRow) (record : CompanyRecord) :
    List CompanyRow × Nat × Str × Bool :=
  let cleanName := normalizeCompanyNameForMatching (some record.name)
  match findExistingCompany st record.orgnr record.domain record.clean_domain (some record.name) with
  | some (id, key) =>
    (st.map (fun r => if r.id = id then applyCompanyUpdate record cleanName r else r), id, key, false)
  | none =>
    match st.find? (fun r => decide (r.company_key = record.company_key)) with
    | some r =>
      (st.map (fun x => if x.company_key = record.company_key
          then companyRowOfRecord x.id record cleanName else x), r.id, record.company_key, true)
    | none =>
      (st ++ [companyRowOfRecord nextId record cleanName], nextId, record.company_key, true)

/-- Written from the specification's words for the phone normalizer:
strip all non-digits; drop the leading `47` when the text form carries
an explicit country-code marker and exactly 10 digits remain; drop the
leading `0047` when 12 digits remain; otherwise return the digits
unchanged (null when none remain).  "The original string begins with a
marker" is read on the trimmed text form (the definite article "the
leading 47" presupposes the digits start with 47). -/
def normalizePhoneSpec (phone : Option Str) : Option Str :=
  match phone with
  | none => none
  | some s =>
    let digits := s.filter isDigitChar
    if digits = [] then none
    else
      let marker :=
        strStarts ("+47".toList) (jsTrim s) || strStarts ("0047".toList) (jsTrim s) ||
        strStarts ("47 ".toList) (jsTrim s) || strStarts ("47-".toList) (jsTrim s)
      if marker && strStarts ("47".toList) digits && digits.length == 10 then
        some (digits.drop 2)
      else if strStarts ("0047".toList) digits && digits.length == 12 then
        some (digits.drop 4)
      else some digits

/-- A valid domain string: non-empty, made of lowercase ASCII letters,
digits, dots and hyphens. -/
def isValidDomainStr (l : Str) : Prop :=
  l ≠ [] ∧ ∀ c ∈ l, (isLowerAlnum c || decide (c = '.') || decide (c = '-')) = true

/-- A source tag in the sense of the job-post source set: non-empty,
trim-invariant, comma-free. -/
def isToken (s : Str) : Prop :=
  s ≠ [] ∧ jsTrim s = s ∧ ',' ∉ s

instance : IsTrans Str sLe := by
  constructor
  intro a b c hab hbc
  induction a generalizing b c with
  | nil => cases c <;> simp [sLe, strLe]
  | cons x xs ih =>
    cases b with
    | nil => simp [sLe, strLe] at hab
    | cons y ys =>
      cases c with
      | nil => simp [sLe, strLe] at hbc
      | cons z zs =>
        simp only [sLe, strLe] at hab hbc ⊢
        rcases Nat.lt_trichotomy x.toNat y.toNat with h1 | h1 | h1
        · rcases Nat.lt_trichotomy y.toNat z.toNat with h2 | h2 | h2
          · rw [if_pos (Nat.lt_trans h1 h2)]
          · rw [if_pos (h2 ▸ h1)]
          · rw [if_neg (Nat.lt_asymm h2), if_pos h2] at hbc
            exact absurd hbc (by simp)
        · rw [if_neg (by omega), if_neg (by omega)] at hab
          rcases Nat.lt_trichotomy y.toNat z.toNat with h2 | h2 | h2
          · rw [if_pos (show x.toNat < z.toNat by omega)]
          · rw [if_neg (by omega), if_neg (by omega)] at hbc
            rw [if_neg (by omega), if_neg (by omega)]
            exact ih ys zs hab hbc
          · rw [if_neg (by omega), if_pos h2] at hbc
            exact absurd hbc (by simp)
        · rw [if_neg (Nat.lt_asymm h1), if_pos h1] at hab
          exact absurd hab (by simp)

instance : IsTotal Str sLe := by
  constructor
  intro a b
  induction a generalizing b with
  | nil => left; simp [sLe, strLe]
  | cons x xs ih =>
    cases b with
    | nil => right; simp [sLe, strLe]
    | cons y ys =>
      simp only [sLe, strLe]
      rcases Nat.lt_trichotomy x.toNat y.toNat with h | h | h
      · left; rw [if_pos h]
      · rcases ih ys with h2 | h2
        · left
          rw [if_neg (by omega), if_neg (by omega)]
          exact h2
        · right
          rw [if_neg (by omega), if_neg (by omega)]
          exact h2
      · right; rw [if_pos h]

/-- Fixture: a stored company row (orgnr 123, location Oslo). -/
def demoCompanyRow : CompanyRow :=
  { id := 0, company_key := "123".toList, name := "Acme".toList,
    domain := none, clean_domain := none, clean_name := none,
    orgnr := some ("123".toList), proff_url := none, industry := none,
    company_size := none, location := some ("Oslo".toList), sector := none }

/-- Fixture: an incoming record for the same company carrying a
different non-null location. -/
def demoCompanyRecord : CompanyRecord :=
  { company_key := "123".toList, name := "Acme".toList, domain := none,
    clean_domain := none, clean_name := none, orgnr := some ("123".toList),
    proff_url := none, industry := none, company_size := none,
    location := some ("Bergen".toList), sector := none }

/-- Fixture: CSV row carrying only `orgnr=123`. -/
def rowOrgnrOnly : CsvCompany :=
  { company_key := "k1".toList, name := none, domain := none, clean_domain := none,
    orgnr := some ("123".toList), proff_url := none, industry := none,
    company_size := none, location := none, profit_before_tax := none, turnover := none }

/-- Fixture: CSV row carrying `orgnr=123` and `domain=a.no`. -/
def rowBoth : CsvCompany :=
  { rowOrgnrOnly with company_key := "k2".toList, domain := some ("a.no".toList) }

/-- Fixture: CSV row carrying only `domain=a.no`. -/
def rowDomainOnly : CsvCompany :=
  { rowOrgnrOnly with company_key := "k3".toList, orgnr := none, domain := some ("a.no".toList) }

/-- Fixture: a job-post record with a given source tag. -/
def demoJobRecord (src : Str) : JobPostRecord :=
  { finn_id := "445216243".toList, company_id := "c1".toList,
    finn_url := "https://www.finn.no/job/ad/445216243".toList,
    title := none, description := none, application_url := none,
    contact_email := none, location := none, employment_type := none,
    salary := none, publication_date := none, expiration_date := none,
    sector := none, industries := none, position_functions := none,
    language := none, company_logo_url := none, company_name := none,
    company_domain_host := none, source := some src, raw_payload := none }

/-- Fixture: the 6001-byte description `"A. "` followed by 5998 `'b'`s;
its only sentence boundary sits at index 1, far below 70% of the
cutoff. -/
def demoLongDescription : Str :=
  'A' :: '.' :: ' ' :: List.replicate 5998 'b'

/-- Fixture: person-key inputs sharing the canonicalized email but
differing in phone. -/
def demoPerson1 : PersonKeyParams :=
  { linkedin_url := none, email := some (" A@x.no ".toList),
    phone := some ("12345678".toList), company_domain := none,
    company_key := none, full_name := none, company_name := none }

def demoPerson2 : PersonKeyParams :=
  { linkedin_url := none, email := some ("a@x.no".toList),
    phone := some ("99988877".toList), company_domain := none,
    company_key := none, full_name := none, company_name := none }

theorem dropWhile_eq_self_of_forall {p : Char → Bool} {l : Str}
    (h : ∀ c ∈ l, p c = false) : l.dropWhile p = l := by
  cases l with
  | nil => rfl
  | cons a t => simp [List.dropWhile_cons, h a (List.mem_cons_self a t)]

theorem rdropWhile_eq_self_of_forall {p : Char → Bool} {l : Str}
    (h : ∀ c ∈ l, p c = false) : l.rdropWhile p = l := by
  rw [List.rdropWhile,
    dropWhile_eq_self_of_forall (fun c hc => h c (List.mem_reverse.mp hc)),
    List.reverse_reverse]

theorem jsTrim_eq_self_of_forall {l : Str}
    (h : ∀ c ∈ l, isJsWs c = false) : jsTrim l = l := by
  rw [jsTrim, dropWhile_eq_self_of_forall h, rdropWhile_eq_self_of_forall h]

theorem takeWhile_eq_self_of_forall {p : Char → Bool} {l : Str}
    (h : ∀ c ∈ l, p c = true) : l.takeWhile p = l := by
  induction l with
  | nil => rfl
  | cons a t ih =>
    simp [List.takeWhile_cons, h a (List.mem_cons_self a t),
      ih (fun c hc => h c (List.mem_cons_of_mem a hc))]

/-- The character-class facts behind `isValidDomainStr`. -/
theorem validChar_facts {c : Char}
    (h : (isLowerAlnum c || decide (c = '.') || decide (c = '-')) = true) :
    (97 ≤ c.toNat ∧ c.toNat ≤ 122) ∨ (48 ≤ c.toNat ∧ c.toNat ≤ 57) ∨
      c.toNat = 46 ∨ c.toNat = 45 := by
  simp only [isLowerAlnum, isLowerAlpha, isDigitChar, Bool.or_eq_true,
    decide_eq_true_eq] at h
  rcases h with ((h | h) | h) | h
  · exact Or.inl h
  · exact Or.inr (Or.inl h)
  · subst h; exact Or.inr (Or.inr (Or.inl (by decide)))
  · subst h; exact Or.inr (Or.inr (Or.inr (by decide)))

theorem validChar_not_ws {c : Char}
    (h : (isLowerAlnum c || decide (c = '.') || decide (c = '-')) = true) :
    isJsWs c = false := by
  have hf := validChar_facts h
  simp only [isJsWs, decide_eq_false_iff_not]
  omega

theorem validChar_toLower {c : Char}
    (h : (isLowerAlnum c || decide (c = '.') || decide (c = '-')) = true) :
    jsToLower c = c := by
  have hf := validChar_facts h
  simp only [jsToLower]
  rw [if_neg (by omega), if_neg (by omega), if_neg (by omega), if_neg (by omega),
    if_neg (by omega), if_neg (by omega), if_neg (by omega)]

theorem validChar_ne {c : Char}
    (h : (isLowerAlnum c || decide (c = '.') || decide (c = '-')) = true) :
    c ≠ ':' ∧ c ≠ '/' ∧ c ≠ '?' ∧ c ≠ '#' ∧ c ≠ '@' := by
  refine ⟨fun he => absurd (he ▸ h) (by decide), fun he => absurd (he ▸ h) (by decide),
    fun he => absurd (he ▸ h) (by decide), fun he => absurd (he ▸ h) (by decide),
    fun he => absurd (he ▸ h) (by decide)⟩

theorem dropToAfterMarker_eq_none {l : Str} (h : ∀ c ∈ l, c ≠ ':') :
    dropToAfterMarker l = none := by
  induction l with
  | nil => rfl
  | cons a t ih =>
    simp only [dropToAfterMarker]
    rw [if_neg (fun hh => h a (List.mem_cons_self a t) hh.1)]
    exact ih (fun c hc => h c (List.mem_cons_of_mem a hc))

theorem urlHostLower_eq_self {l : Str}
    (h : ∀ c ∈ l, (isLowerAlnum c || decide (c = '.') || decide (c = '-')) = true) :
    urlHostLower l = l := by
  have hmarker : dropToAfterMarker l = none :=
    dropToAfterMarker_eq_none (fun c hc => (validChar_ne (h c hc)).1)
  simp only [urlHostLower, hmarker, Option.getD_none]
  rw [takeWhile_eq_self_of_forall (p := fun c => !decide (c = '/' ∨ c = '?' ∨ c = '#'))
    (fun c hc => by
      have hn := validChar_ne (h c hc)
      simp [hn.2.1, hn.2.2.1, hn.2.2.2.1])]
  rw [show afterLastAt l = l from ?_]
  · rw [takeWhile_eq_self_of_forall (p := fun c => !decide (c = ':'))
      (fun c hc => by simp [(validChar_ne (h c hc)).1])]
    calc l.map jsToLower = l.map id := List.map_congr_left (fun c hc => validChar_toLower (h c hc))
      _ = l := List.map_id l
  · rw [afterLastAt]
    rw [takeWhile_eq_self_of_forall (p := fun c => !decide (c = '@'))
      (fun c hc => by simp [(validChar_ne (h c (List.mem_reverse.mp hc))).2.2.2.2])]
    exact List.reverse_reverse l

theorem stripWww_sublist (l : Str) : List.Sublist (stripWww l) l := by
  unfold stripWww
  split
  · rename_i rest
    split
    · rename_i tail heq
      have h1 : List.Sublist ('.' :: tail) rest := heq ▸ (List.dropWhile_suffix isDigitChar).sublist
      have h2 : List.Sublist tail rest := (List.sublist_cons_self '.' tail).trans h1
      exact h2.trans ((List.sublist_cons_self _ _).trans
        ((List.sublist_cons_self _ _).trans (List.sublist_cons_self _ _)))
    · exact List.Sublist.refl _
  · exact List.Sublist.refl _

/-- `normalizeDomainHost` on a valid domain string is `stripWww` (with
the empty-result-to-null coercion). -/
theorem normalizeDomainHost_valid {l : Str} (hne : l ≠ [])
    (h : ∀ c ∈ l, (isLowerAlnum c || decide (c = '.') || decide (c = '-')) = true) :
    normalizeDomainHost (some l) =
      if stripWww l = [] then none else some (stripWww l) := by
  simp only [normalizeDomainHost]
  rw [if_neg hne, jsTrim_eq_self_of_forall (fun c hc => validChar_not_ws (h c hc))]
  rw [if_neg hne, urlHostLower_eq_self h]

/-- C6 counterexample: `"www.www.x.no"` is a valid domain string on
which `normalizeDomainHost` is not idempotent — one application strips
one `www.` prefix, a second application strips another. -/
theorem C6_normalizeDomainHost_not_idempotent :
    isValidDomainStr ("www.www.x.no".toList) ∧
    normalizeDomainHost (normalizeDomainHost (some ("www.www.x.no".toList))) ≠
      normalizeDomainHost (some ("www.www.x.no".toList)) :=
  ⟨⟨by decide, by decide⟩, by decide⟩

/-- C6 (amended): on every valid domain string carrying at most one
`www`/`www2`/`www3` prefix (that is, stripping one such prefix leaves a
string that carries none), `normalizeDomainHost` is idempotent.  With
stacked prefixes each application strips exactly one more, so the
original universally quantified idempotence claim fails. -/
theorem C6_normalizeDomainHost_idempotent_amended :
    ∀ l : Str, isValidDomainStr l → stripWww (stripWww l) = stripWww l →
      normalizeDomainHost (normalizeDomainHost (some l)) = normalizeDomainHost (some l) := by
  intro l hv hww
  obtain ⟨hne, hval⟩ := hv
  rw [normalizeDomainHost_valid hne hval]
  by_cases hz : stripWww l = []
  · rw [if_pos hz]
    rfl
  · rw [if_neg hz]
    have hyval : ∀ c ∈ stripWww l, (isLowerAlnum c || decide (c = '.') || decide (c = '-')) = true :=
      fun c hc => hval c ((stripWww_sublist l).mem hc)
    rw [normalizeDomainHost_valid hz hyval, hww, if_neg hz]

/-- C6 witness: the amended idempotence at `"www.acme.no"`. -/
theorem C6_witness :
    normalizeDomainHost (normalizeDomainHost (some ("www.acme.no".toList))) =
      normalizeDomainHost (some ("www.acme.no".toList)) :=
  C6_normalizeDomainHost_idempotent_amended ("www.acme.no".toList)
    ⟨by decide, by decide⟩ (by decide)

/-- C10: for every title (including null/undefined), `classifyPersonRole`
returns one of `decision_maker`, `recruiter`, `contact_person`; the
declared value `other` is never returned. -/
theorem C10_classifyPersonRole_never_other :
    ∀ title : Option Str,
      (classifyPersonRole title = PersonRole.decision_maker ∨
       classifyPersonRole title = PersonRole.recruiter ∨
       classifyPersonRole title = PersonRole.contact_person) ∧
      classifyPersonRole title ≠ PersonRole.other := by
  intro title
  cases title with
  | none => exact ⟨Or.inr (Or.inr rfl), by simp [classifyPersonRole]⟩
  | some s =>
    simp only [classifyPersonRole]
    split
    · exact ⟨Or.inr (Or.inr rfl), by simp⟩
    · split
      · exact ⟨Or.inl rfl, by simp⟩
      · split
        · exact ⟨Or.inr (Or.inl rfl), by simp⟩
        · exact ⟨Or.inr (Or.inr rfl), by simp⟩

set_option maxRecDepth 4000 in
/-- C8: the code strips suffixes repeatedly, contradicting the
one-suffix description (and the function's own doc example
`"AKVA Group ASA" -> "akvagroup"`): it yields `"akva"`, stripping both
`ASA` and `Group`. -/
theorem C8_normalizeCompanyNameForMatching_multi_strip :
    normalizeCompanyNameForMatching (some ("AKVA Group ASA".toList)) = some ("akva".toList) ∧
    normalizeCompanyNameForMatching (some ("AKVA Group ASA".toList)) ≠ some ("akvagroup".toList) :=
  ⟨by decide, by decide⟩

/-- C5: the three-row scenario merges into one record carrying both
identifiers when the bridging row does not arrive last, but the arrival
order (domain-only, orgnr-only, both) leaves two records — the grouping
pass never unifies two already-minted groups. -/
theorem C5_deduplicateCompanies_order_dependent :
    (deduplicateCompanies [rowOrgnrOnly, rowBoth, rowDomainOnly]).length = 1 ∧
    (deduplicateCompanies [rowOrgnrOnly, rowBoth, rowDomainOnly]).map
      (fun r => (r.orgnr, r.domain)) = [(some ("123".toList), some ("a.no".toList))] ∧
    (deduplicateCompanies [rowDomainOnly, rowOrgnrOnly, rowBoth]).length = 2 :=
  ⟨by decide, by decide, by decide⟩

theorem firstSome_eq_none {L : List (Option Str)} :
    firstSome L = none ↔ ∀ o ∈ L, o = none := by
  induction L with
  | nil => simp [firstSome]
  | cons a rest ih =>
    cases a with
    | none => simp [firstSome, ih]
    | some v => simp [firstSome]

/-- `buildCompanyKey` refines the spec-side first-non-empty-candidate
description. -/
theorem buildCompanyKey_eq_spec (o cd dh n : Option Str) :
    buildCompanyKey o cd dh n = buildCompanyKeySpec o cd dh n := by
  simp only [buildCompanyKey, buildCompanyKeySpec, companyKeyCandidates, firstSome]
  cases hOrg : normalizeOrgnr o with
  | some k => rfl
  | none =>
    dsimp only
    have hp2 : (match cd with
        | some cdv =>
          if cdv = [] then none
          else
            match normalizeDomainHost (some cdv) with
            | some d => if d = finnNoHost then none else some d
            | none => none
        | none => (none : Option Str)) =
        (normalizeDomainHost cd).bind (fun d => if d = finnNoHost then none else some d) := by
      cases cd with
      | none => rfl
      | some cdv =>
        dsimp only
        by_cases hcd : cdv = []
        · subst hcd
          simp [normalizeDomainHost]
        · rw [if_neg hcd]
          cases normalizeDomainHost (some cdv) <;> rfl
    rw [hp2]
    cases (normalizeDomainHost cd).bind (fun d => if d = finnNoHost then none else some d) with
    | some d => rfl
    | none =>
      dsimp only
      cases normalizeDomainHost dh with
      | none => cases nameSlug n <;> rfl
      | some d =>
        dsimp only [Option.bind]
        by_cases hd : d = finnNoHost
        · rw [if_pos hd, if_pos hd]
        · rw [if_neg hd, if_neg hd]

/-- C1: `buildCompanyKey` returns the first non-empty candidate in the
stated priority order and fails exactly when all four candidates are
empty; `{orgnr: "912345678"}` wins over any lower-priority fields,
`{clean_domain: "www.acme.no"}` yields `"acme.no"`, and a bare
`{domain_host: "finn.no"}` falls through to the name slug (failing when
no name is present). -/
theorem C1_buildCompanyKey_priority :
    (∀ o cd dh n : Option Str, buildCompanyKey o cd dh n = buildCompanyKeySpec o cd dh n) ∧
    (∀ o cd dh n : Option Str,
      buildCompanyKey o cd dh n = none ↔
        ∀ c ∈ companyKeyCandidates o cd dh n, c = none) ∧
    (∀ cd dh n : Option Str,
      buildCompanyKey (some ("912345678".toList)) cd dh n = some ("912345678".toList)) ∧
    buildCompanyKey none (some ("www.acme.no".toList)) none none = some ("acme.no".toList) ∧
    buildCompanyKey none none (some ("finn.no".toList)) none = none ∧
    buildCompanyKey none none (some ("finn.no".toList)) (some ("Acme Robotics".toList)) =
      some ("acmerobotics".toList) := by
  refine ⟨buildCompanyKey_eq_spec, ?_, ?_, by decide, by decide, by decide⟩
  · intro o cd dh n
    rw [buildCompanyKey_eq_spec, buildCompanyKeySpec, firstSome_eq_none]
  · intro cd dh n
    rfl

/-- `buildPersonKey` refines the spec-side first-available-signal
description. -/
theorem buildPersonKey_eq_spec (p : PersonKeyParams) :
    buildPersonKey p = buildPersonKeySpec p := by
  simp only [buildPersonKey, buildPersonKeySpec, personKeyCandidates, personTruthyName,
    firstSome]
  cases canonicalizeLinkedInUrl p.linkedin_url with
  | some l => rfl
  | none =>
    dsimp only
    cases normalizeEmail p.email with
    | some e => rfl
    | none =>
      dsimp only
      cases normalizePhone p.phone with
      | some ph => rfl
      | none =>
        dsimp only
        cases hnm : normalizeNameForKey p.full_name with
        | none => rfl
        | some nm =>
          dsimp only
          by_cases hnil : nm = []
          · subst hnil
            simp
          · rw [if_neg hnil, if_neg hnil]
            dsimp only [Option.bind]
            cases normalizeDomainHost p.company_domain with
            | none =>
              dsimp only [Option.bind]
              rw [personKeyFallback]
              cases personCompanyAnchor p with
              | none => rfl
              | some c =>
                dsimp only [Option.bind]
                by_cases hc : c = []
                · rw [if_pos hc]
                · rw [if_neg hc]
            | some d =>
              dsimp only [Option.bind]
              by_cases hd : d = finnNoHost
              · rw [if_pos hd, if_pos hd]
                rw [personKeyFallback]
                cases personCompanyAnchor p with
                | none => rfl
                | some c =>
                  dsimp only [Option.bind]
                  by_cases hc : c = []
                  · rw [if_pos hc]
                  · rw [if_neg hc]
              · rw [if_neg hd, if_neg hd]

/-- C2: `buildPersonKey` returns the first available signal in the
stated priority order (LinkedIn, email, phone, domain+name,
company-name-or-key+name) and fails exactly when no candidate is
available — no signal and no (non-empty) name, or a name with no
company anchor; and any two inputs without a LinkedIn signal sharing
the same canonicalized email resolve to the same key regardless of
their phone numbers. -/
theorem C2_buildPersonKey_priority :
    (∀ p : PersonKeyParams, buildPersonKey p = buildPersonKeySpec p) ∧
    (∀ p : PersonKeyParams,
      buildPersonKey p = none ↔ ∀ c ∈ personKeyCandidates p, c = none) ∧
    (∀ (p₁ p₂ : PersonKeyParams) (e : Str),
      canonicalizeLinkedInUrl p₁.linkedin_url = none →
      canonicalizeLinkedInUrl p₂.linkedin_url = none →
      normalizeEmail p₁.email = some e →
      normalizeEmail p₂.email = some e →
      buildPersonKey p₁ = buildPersonKey p₂) := by
  refine ⟨buildPersonKey_eq_spec, ?_, ?_⟩
  · intro p
    rw [buildPersonKey_eq_spec, buildPersonKeySpec, firstSome_eq_none]
  · intro p₁ p₂ e h₁ h₂ h₃ h₄
    rw [buildPersonKey_eq_spec, buildPersonKey_eq_spec]
    simp only [buildPersonKeySpec, personKeyCandidates, firstSome, h₁, h₂, h₃, h₄]

/-- C2 witness: two concrete contact rows with the same canonicalized
email and different phone numbers get the same person key. -/
theorem C2_witness : buildPersonKey demoPerson1 = buildPersonKey demoPerson2 :=
  C2_buildPersonKey_priority.2.2 demoPerson1 demoPerson2 ("a@x.no".toList)
    (by decide) (by decide) (by decide) (by decide)

theorem filter_dropWhile_of_excl {p q : Char → Bool}
    (h : ∀ c, q c = true → p c = false) (l : Str) :
    (l.dropWhile q).filter p = l.filter p := by
  induction l with
  | nil => rfl
  | cons a t ih =>
    by_cases hq : q a = true
    · simp [List.dropWhile_cons, hq, List.filter_cons, h a hq, ih]
    · simp [List.dropWhile_cons, hq]

theorem filter_rdropWhile_of_excl {p q : Char → Bool}
    (h : ∀ c, q c = true → p c = false) (l : Str) :
    (l.rdropWhile q).filter p = l.filter p := by
  rw [List.rdropWhile, List.filter_reverse, filter_dropWhile_of_excl h,
    List.filter_reverse, List.reverse_reverse]

theorem filter_jsTrim_of_excl {p : Char → Bool}
    (h : ∀ c, isJsWs c = true → p c = false) (l : Str) :
    (jsTrim l).filter p = l.filter p := by
  rw [jsTrim, filter_rdropWhile_of_excl h, filter_dropWhile_of_excl h]

theorem ws_not_digit : ∀ c : Char, isJsWs c = true → isDigitChar c = false := by
  intro c hc
  simp only [isJsWs, decide_eq_true_eq] at hc
  simp only [isDigitChar, decide_eq_false_iff_not]
  omega

/-- C7: `normalizePhone` agrees everywhere with the specification's
case description (marker on the text form plus exactly 10 digits
starting with 47 drops the country code; `0047` with 12 digits drops
four; otherwise the stripped digits are returned, null when empty);
`"+47 99988877"` normalizes to `"99988877"` and the 8-digit
`"47123456"` is never truncated. -/
theorem C7_normalizePhone_spec :
    (∀ phone : Option Str, normalizePhone phone = normalizePhoneSpec phone) ∧
    normalizePhone (some ("+47 99988877".toList)) = some ("99988877".toList) ∧
    normalizePhone (some ("47123456".toList)) = some ("47123456".toList) ∧
    normalizePhone (some ("0047 99 98 88 77".toList)) = some ("99988877".toList) := by
  refine ⟨?_, by decide, by decide, by decide⟩
  intro phone
  cases phone with
  | none => rfl
  | some s =>
    by_cases hs : s = []
    · subst hs; decide
    · simp only [normalizePhone, normalizePhoneSpec, if_neg hs,
        filter_jsTrim_of_excl ws_not_digit]

theorem utf8Len_cons (c : Char) (l : Str) : utf8Len (c :: l) = charBytes c + utf8Len l := by
  simp [utf8Len]

theorem utf8Len_append (a b : Str) : utf8Len (a ++ b) = utf8Len a + utf8Len b := by
  simp [utf8Len]

theorem utf8Len_replicate (n : Nat) (c : Char) :
    utf8Len (List.replicate n c) = n * charBytes c := by
  induction n with
  | zero => simp [utf8Len]
  | succ m ih =>
    rw [List.replicate_succ, utf8Len_cons, ih]
    ring

theorem utf8Len_sublist_le {a b : Str} (h : List.Sublist a b) : utf8Len a ≤ utf8Len b := by
  induction h with
  | slnil => simp [utf8Len]
  | cons c h ih => rw [utf8Len_cons]; omega
  | cons₂ c h ih => rw [utf8Len_cons, utf8Len_cons]; omega

theorem jsTrim_sublist (l : Str) : List.Sublist (jsTrim l) l :=
  (List.rdropWhile_prefix isJsWs (l.dropWhile isJsWs)).sublist.trans
    (List.dropWhile_suffix isJsWs).sublist

theorem findCutoff_le (s : Str) : ∀ n, utf8Len (s.take (findCutoff s n)) ≤ CLAY_CELL_MAX_BYTES := by
  intro n
  induction n with
  | zero => simp [findCutoff, utf8Len, CLAY_CELL_MAX_BYTES]
  | succ c ih =>
    simp only [findCutoff]
    split
    · exact ih
    · omega

theorem findCutoff_eq_of_le {s : Str} {n : Nat} (hn : 0 < n)
    (h : utf8Len (s.take n) ≤ CLAY_CELL_MAX_BYTES) : findCutoff s n = n := by
  cases n with
  | zero => omega
  | succ c =>
    simp only [findCutoff]
    rw [if_neg (by omega)]

/-- C9 (amended): the truncated description is bounded by the byte
budget plus the 7-byte truncation marker `"\n\n[...]"` — 6007 bytes in
all, not 6000; in the scalar-value model no character is ever split. -/
theorem C9_truncateDescription_budget :
    ∀ s : Str, utf8Len ((truncateDescription (some s)).getD []) ≤ CLAY_CELL_MAX_BYTES + 7 := by
  intro s
  by_cases hs : s = []
  · subst hs
    simp [truncateDescription, utf8Len]
  · simp only [truncateDescription, if_neg hs]
    by_cases hb : utf8Len s ≤ CLAY_CELL_MAX_BYTES
    · rw [if_pos hb]
      simp only [Option.getD_some]
      omega
    · rw [if_neg hb]
      simp only [Option.getD_some]
      have key : ∀ t : Str, List.Sublist t (s.take (findCutoff s CLAY_CELL_MAX_BYTES)) →
          utf8Len (jsTrim t ++ "\n\n[...]".toList) ≤ CLAY_CELL_MAX_BYTES + 7 := by
        intro t ht
        rw [utf8Len_append]
        have h1 : utf8Len (jsTrim t) ≤ utf8Len t := utf8Len_sublist_le (jsTrim_sublist t)
        have h2 : utf8Len t ≤ utf8Len (s.take (findCutoff s CLAY_CELL_MAX_BYTES)) :=
          utf8Len_sublist_le ht
        have h3 : utf8Len (s.take (findCutoff s CLAY_CELL_MAX_BYTES)) ≤ CLAY_CELL_MAX_BYTES :=
          findCutoff_le s _
        have h4 : utf8Len ("\n\n[...]".toList) = 7 := by decide
        omega
      split
      · exact key _ (List.take_sublist _ _)
      · split
        · exact key _ (List.take_sublist _ _)
        · exact key _ (List.Sublist.refl _)

theorem lastIdx2_cons (a b c : Char) (t : Str) :
    lastIdx2 a b (c :: t) =
      match lastIdx2 a b t with
      | some i => some (i + 1)
      | none => if c = a ∧ t.take 1 = [b] then some 0 else none := rfl

theorem lastIdx2_eq_none {a b : Char} {l : Str} (h : ∀ x ∈ l, x ≠ a) :
    lastIdx2 a b l = none := by
  induction l with
  | nil => rfl
  | cons c t ih =>
    rw [lastIdx2_cons, ih (fun x hx => h x (List.mem_cons_of_mem c hx))]
    exact if_neg (fun hh => h c (List.mem_cons_self c t) hh.1)

theorem demoLong_take :
    demoLongDescription.take 6000 = 'A' :: '.' :: ' ' :: List.replicate 5997 'b' := by
  simp only [demoLongDescription]
  rw [show (6000 : Nat) = 5999 + 1 from rfl, List.take_succ_cons,
    show (5999 : Nat) = 5998 + 1 from rfl, List.take_succ_cons,
    show (5998 : Nat) = 5997 + 1 from rfl, List.take_succ_cons,
    List.take_replicate]
  rw [show min 5997 5998 = 5997 from by omega]

theorem demoLong_len : utf8Len demoLongDescription = 6001 := by
  simp only [demoLongDescription, utf8Len_cons, utf8Len_replicate]
  decide

theorem demoLong_take_len :
    utf8Len (demoLongDescription.take 6000) = 6000 := by
  rw [demoLong_take]
  simp only [utf8Len_cons, utf8Len_replicate]
  decide

theorem demoLong_cutoff :
    findCutoff demoLongDescription CLAY_CELL_MAX_BYTES = CLAY_CELL_MAX_BYTES :=
  findCutoff_eq_of_le (by norm_num [CLAY_CELL_MAX_BYTES])
    (by rw [show CLAY_CELL_MAX_BYTES = 6000 from rfl, demoLong_take_len])

theorem demoLong_trim :
    jsTrim ('A' :: '.' :: ' ' :: List.replicate 5997 'b') =
      'A' :: '.' :: ' ' :: List.replicate 5997 'b' := by
  rw [jsTrim, List.dropWhile_cons, if_neg (by decide)]
  rw [show (5997 : Nat) = 5996 + 1 from rfl, List.replicate_succ']
  rw [show ('A' :: '.' :: ' ' :: (List.replicate 5996 'b' ++ ['b'])) =
    ('A' :: '.' :: ' ' :: List.replicate 5996 'b') ++ ['b'] from rfl]
  rw [List.rdropWhile_concat_neg _ _ 'b' (by decide)]

theorem demoLong_no_char {c : Char} (hc : c ≠ 'A' ∧ c ≠ '.' ∧ c ≠ ' ' ∧ c ≠ 'b') :
    ∀ x ∈ 'A' :: '.' :: ' ' :: List.replicate 5997 'b', x ≠ c := by
  intro x hx
  rcases List.mem_cons.mp hx with rfl | hx
  · exact fun he => hc.1 he.symm
  rcases List.mem_cons.mp hx with rfl | hx
  · exact fun he => hc.2.1 he.symm
  rcases List.mem_cons.mp hx with rfl | hx
  · exact fun he => hc.2.2.1 he.symm
  · rw [(List.mem_replicate.mp hx).2]
    exact fun he => hc.2.2.2 he.symm

theorem demoLong_dot_space :
    lastIdx2 '.' ' ' ('A' :: '.' :: ' ' :: List.replicate 5997 'b') = some 1 := by
  have h0 : lastIdx2 '.' ' ' (List.replicate 5997 'b') = none :=
    lastIdx2_eq_none (fun x hx => by rw [(List.mem_replicate.mp hx).2]; decide)
  have h1 : lastIdx2 '.' ' ' (' ' :: List.replicate 5997 'b') = none := by
    rw [lastIdx2_cons, h0]
    exact if_neg (fun hh => by exact absurd hh.1 (by decide))
  have h2 : lastIdx2 '.' ' ' ('.' :: ' ' :: List.replicate 5997 'b') = some 0 := by
    rw [lastIdx2_cons, h1]
    exact if_pos ⟨rfl, rfl⟩
  rw [lastIdx2_cons, h2]

theorem demoLong_dot_nl :
    lastIdx2 '.' '\n' ('A' :: '.' :: ' ' :: List.replicate 5997 'b') = none := by
  have h0 : lastIdx2 '.' '\n' (List.replicate 5997 'b') = none :=
    lastIdx2_eq_none (fun x hx => by rw [(List.mem_replicate.mp hx).2]; decide)
  have h1 : lastIdx2 '.' '\n' (' ' :: List.replicate 5997 'b') = none := by
    rw [lastIdx2_cons, h0]
    exact if_neg (fun hh => by exact absurd hh.1 (by decide))
  have h2 : lastIdx2 '.' '\n' ('.' :: ' ' :: List.replicate 5997 'b') = none := by
    rw [lastIdx2_cons, h1]
    exact if_neg (fun hh => by exact absurd hh.2 (by decide))
  rw [lastIdx2_cons, h2]
  exact if_neg (fun hh => by exact absurd hh.1 (by decide))

/-- The computed value of `truncateDescription` on the 6001-byte
fixture: the cutoff stays at 6000, no paragraph or sentence cut applies
(the only sentence boundary sits at index 1, below the 70% threshold —
so the cut does not fall at the boundary although one exists within the
budget), and the marker is appended. -/
theorem demoLong_value :
    truncateDescription (some demoLongDescription) =
      some (('A' :: '.' :: ' ' :: List.replicate 5997 'b') ++ "\n\n[...]".toList) := by
  have hs : demoLongDescription ≠ [] := by
    unfold demoLongDescription
    exact List.cons_ne_nil _ _
  simp only [truncateDescription, if_neg hs]
  rw [if_neg (by rw [demoLong_len]; norm_num [CLAY_CELL_MAX_BYTES])]
  rw [demoLong_cutoff, show CLAY_CELL_MAX_BYTES = 6000 from rfl, demoLong_take]
  have hpar : jsLastIdx2 '\n' '\n' ('A' :: '.' :: ' ' :: List.replicate 5997 'b') = -1 := by
    rw [jsLastIdx2, lastIdx2_eq_none (demoLong_no_char (by decide))]
  have hq : jsLastIdx2 '?' ' ' ('A' :: '.' :: ' ' :: List.replicate 5997 'b') = -1 := by
    rw [jsLastIdx2, lastIdx2_eq_none (demoLong_no_char (by decide))]
  have hex : jsLastIdx2 '!' ' ' ('A' :: '.' :: ' ' :: List.replicate 5997 'b') = -1 := by
    rw [jsLastIdx2, lastIdx2_eq_none (demoLong_no_char (by decide))]
  have hds : jsLastIdx2 '.' ' ' ('A' :: '.' :: ' ' :: List.replicate 5997 'b') = 1 := by
    rw [jsLastIdx2, demoLong_dot_space]
    decide
  have hdn : jsLastIdx2 '.' '\n' ('A' :: '.' :: ' ' :: List.replicate 5997 'b') = -1 := by
    rw [jsLastIdx2, demoLong_dot_nl]
  rw [hpar]
  rw [if_neg (by norm_num)]
  rw [hds, hdn, hq, hex]
  rw [if_neg (by norm_num)]
  rw [demoLong_trim]

/-- C9 counterexample: on the 6001-byte fixture the output of
`truncateDescription` is 6007 UTF-8 bytes — the claimed 6000-byte bound
is exceeded (the appended `"\n\n[...]"` marker is not counted against
the budget), and the cut does not fall at the sentence boundary that
exists within the budget. -/
theorem C9_truncateDescription_over_6000 :
    CLAY_CELL_MAX_BYTES <
      utf8Len ((truncateDescription (some demoLongDescription)).getD []) := by
  rw [demoLong_value, Option.getD_some, utf8Len_append]
  rw [show utf8Len ('A' :: '.' :: ' ' :: List.replicate 5997 'b') = 6000 from by
    simp only [utf8Len_cons, utf8Len_replicate]; decide]
  rw [show utf8Len ("\n\n[...]".toList) = 7 from by decide]
  norm_num [CLAY_CELL_MAX_BYTES]

theorem splitComma_cons (c : Char) (rest : Str) :
    splitComma (c :: rest) =
      match splitComma rest with
      | [] => [[c]]
      | h :: t => if c = ',' then [] :: h :: t else (c :: h) :: t := rfl

theorem splitComma_ne_nil (l : Str) : splitComma l ≠ [] := by
  cases l with
  | nil => simp [splitComma]
  | cons c t =>
    rw [splitComma_cons]
    cases splitComma t with
    | nil => simp
    | cons h tt => by_cases hc : c = ',' <;> simp [hc]

theorem splitComma_nocomma {x : Str} (h : ',' ∉ x) : splitComma x = [x] := by
  induction x with
  | nil => rfl
  | cons c t ih =>
    rw [splitComma_cons, ih (fun hm => h (List.mem_cons_of_mem c hm))]
    dsimp only
    rw [if_neg (fun (hc : c = ',') => h (hc ▸ List.mem_cons_self c t))]

theorem splitComma_append {x : Str} (z : Str) (h : ',' ∉ x) :
    splitComma (x ++ ',' :: z) = x :: splitComma z := by
  induction x with
  | nil =>
    rw [List.nil_append, splitComma_cons]
    cases hz : splitComma z with
    | nil => exact absurd hz (splitComma_ne_nil z)
    | cons hh tt => simp
  | cons c t ih =>
    have ht : ',' ∉ t := fun hm => h (List.mem_cons_of_mem c hm)
    show splitComma (c :: (t ++ ',' :: z)) = (c :: t) :: splitComma z
    rw [splitComma_cons, ih ht]
    dsimp only
    rw [if_neg (fun (hc : c = ',') => h (hc ▸ List.mem_cons_self c t))]

theorem splitComma_chunks_nocomma (l : Str) : ∀ y ∈ splitComma l, ',' ∉ y := by
  induction l with
  | nil =>
    intro y hy
    simp only [splitComma, List.mem_singleton] at hy
    subst hy
    simp
  | cons c t ih =>
    intro y hy
    rw [splitComma_cons] at hy
    cases hsp : splitComma t with
    | nil => exact absurd hsp (splitComma_ne_nil t)
    | cons h tt =>
      rw [hsp] at hy
      dsimp only at hy
      by_cases hc : c = ','
      · rw [if_pos hc] at hy
        rcases List.mem_cons.mp hy with rfl | hy2
        · simp
        · exact ih y (hsp ▸ hy2)
      · rw [if_neg hc] at hy
        rcases List.mem_cons.mp hy with rfl | hy2
        · intro hm
          rcases List.mem_cons.mp hm with he | hm2
          · exact hc he.symm
          · exact ih h (hsp ▸ List.mem_cons_self h tt) hm2
        · exact ih y (hsp ▸ List.mem_cons_of_mem h hy2)

theorem dropWhile_idem {p : Char → Bool} (l : Str) :
    (l.dropWhile p).dropWhile p = l.dropWhile p := by
  induction l with
  | nil => rfl
  | cons a t ih =>
    by_cases hp : p a = true
    · simp [List.dropWhile_cons, hp, ih]
    · simp [List.dropWhile_cons, hp]

theorem head_false_of_dropWhile_eq {p : Char → Bool} {a : Char} {t : Str}
    (h : (a :: t).dropWhile p = a :: t) : p a = false := by
  by_cases hp : p a = true
  · rw [List.dropWhile_cons, if_pos hp] at h
    have hlen := congrArg List.length h
    have hle := (List.dropWhile_suffix (l := t) p).sublist.length_le
    simp only [List.length_cons] at hlen
    omega
  · simpa using hp

theorem jsTrim_idem (l : Str) : jsTrim (jsTrim l) = jsTrim l := by
  have hstep1 : (jsTrim l).dropWhile isJsWs = jsTrim l := by
    cases hme : jsTrim l with
    | nil => rfl
    | cons a t =>
      rw [List.dropWhile_cons, if_neg ?_]
      obtain ⟨tl, htl⟩ := List.rdropWhile_prefix isJsWs (l.dropWhile isJsWs)
      have hk : l.dropWhile isJsWs = a :: (t ++ tl) := by
        rw [← htl]
        rw [show jsTrim l = (l.dropWhile isJsWs).rdropWhile isJsWs from rfl] at hme
        rw [hme]
        rfl
      have hd := dropWhile_idem (p := isJsWs) l
      rw [hk] at hd
      simp [head_false_of_dropWhile_eq hd]
  have hstep2 : (jsTrim l).rdropWhile isJsWs = jsTrim l := by
    rw [List.rdropWhile_eq_self_iff]
    intro hl
    exact List.rdropWhile_last_not isJsWs (l.dropWhile isJsWs) hl
  show ((jsTrim l).dropWhile isJsWs).rdropWhile isJsWs = jsTrim l
  rw [hstep1, hstep2]

theorem parseSources_some (l : Str) :
    parseSources (some l) = ((splitComma l).map jsTrim).filter (fun x => decide (x ≠ [])) := rfl

theorem parseSources_tokens (o : Option Str) : ∀ x ∈ parseSources o, isToken x := by
  intro x hx
  simp only [parseSources, List.mem_filter, decide_eq_true_eq] at hx
  obtain ⟨hx1, hx2⟩ := hx
  obtain ⟨y, hy, rfl⟩ := List.mem_map.mp hx1
  refine ⟨hx2, jsTrim_idem y, fun hm => ?_⟩
  exact splitComma_chunks_nocomma _ y hy ((jsTrim_sublist y).subset hm)

theorem joinComma_ne_nil {xs : List Str} (hne : xs ≠ []) (h : ∀ x ∈ xs, x ≠ []) :
    joinComma xs ≠ [] := by
  cases xs with
  | nil => exact absurd rfl hne
  | cons x rest =>
    cases rest with
    | nil => exact h x (List.mem_cons_self x [])
    | cons y r2 => simp [joinComma]

theorem splitComma_joinComma : ∀ {xs : List Str}, xs ≠ [] → (∀ x ∈ xs, ',' ∉ x) →
    splitComma (joinComma xs) = xs := by
  intro xs
  induction xs with
  | nil => intro hne; exact absurd rfl hne
  | cons x rest ih =>
    intro _ h
    cases rest with
    | nil => exact splitComma_nocomma (h x (List.mem_cons_self x []))
    | cons y rest2 =>
      rw [joinComma, splitComma_append _ (h x (List.mem_cons_self x (y :: rest2)))]
      rw [ih (List.cons_ne_nil y rest2) (fun z hz => h z (List.mem_cons_of_mem x hz))]

theorem parseSources_join {xs : List Str} (hne : xs ≠ []) (h : ∀ x ∈ xs, isToken x) :
    parseSources (some (joinComma xs)) = xs := by
  rw [parseSources_some, splitComma_joinComma hne (fun x hx => (h x hx).2.2)]
  rw [List.map_congr_left (fun x hx => (h x hx).2.1)]
  rw [List.map_id']
  rw [List.filter_eq_self.mpr (fun x hx => by simp [(h x hx).1])]

theorem mem_dedupAcc : ∀ {l : List Str} {seen : List Str} {x : Str},
    x ∈ dedupAcc seen l ↔ (x ∈ l ∧ x ∉ seen) := by
  intro l
  induction l with
  | nil => intro seen x; simp [dedupAcc]
  | cons a t ih =>
    intro seen x
    simp only [dedupAcc]
    by_cases ha : a ∈ seen
    · rw [if_pos ha, ih]
      constructor
      · rintro ⟨h1, h2⟩
        exact ⟨List.mem_cons_of_mem a h1, h2⟩
      · rintro ⟨h1, h2⟩
        rcases List.mem_cons.mp h1 with rfl | h1
        · exact absurd ha h2
        · exact ⟨h1, h2⟩
    · rw [if_neg ha]
      constructor
      · intro hm
        rcases List.mem_cons.mp hm with rfl | hm
        · exact ⟨List.mem_cons_self x t, ha⟩
        · obtain ⟨h1, h2⟩ := ih.mp hm
          exact ⟨List.mem_cons_of_mem a h1, fun hs => h2 (List.mem_cons_of_mem a hs)⟩
      · rintro ⟨h1, h2⟩
        rcases List.mem_cons.mp h1 with rfl | h1
        · exact List.mem_cons_self x _
        · by_cases hxa : x = a
          · subst hxa
            exact List.mem_cons_self x _
          · exact List.mem_cons_of_mem a
              (ih.mpr ⟨h1, fun hs => (List.mem_cons.mp hs).elim hxa h2⟩)

theorem nodup_dedupAcc : ∀ (l seen : List Str), (dedupAcc seen l).Nodup := by
  intro l
  induction l with
  | nil => intro seen; simp [dedupAcc]
  | cons a t ih =>
    intro seen
    simp only [dedupAcc]
    by_cases ha : a ∈ seen
    · rw [if_pos ha]
      exact ih seen
    · rw [if_neg ha]
      refine List.nodup_cons.mpr ⟨?_, ih (a :: seen)⟩
      intro hmem
      exact (mem_dedupAcc.mp hmem).2 (List.mem_cons_self a seen)

theorem mem_dedupFirst {l : List Str} {x : Str} : x ∈ dedupFirst l ↔ x ∈ l := by
  rw [dedupFirst, mem_dedupAcc]
  simp

theorem nodup_dedupFirst (l : List Str) : (dedupFirst l).Nodup :=
  nodup_dedupAcc l []

/-- `mergeSources` expressed through the named source set. -/
theorem mergeSources_eq (o : Option Str) (t : Str) :
    mergeSources o (some t) =
      (if joinComma (jsSortStrings (mergeWithNew o t)) = [] then none
       else some (joinComma (jsSortStrings (mergeWithNew o t)))) := rfl

theorem mem_mergeWithNew (o : Option Str) (t : Str) (s : Str) :
    s ∈ mergeWithNew o t ↔
      (s ∈ parseSources o ∨ (jsTrim t ≠ [] ∧ s = jsTrim t)) := by
  rw [mergeWithNew]
  by_cases hadd : jsTrim t ≠ [] ∧ jsTrim t ∉ dedupFirst (parseSources o)
  · rw [if_pos hadd]
    rw [List.mem_append, mem_dedupFirst, List.mem_singleton]
    constructor
    · rintro (h | rfl)
      · exact Or.inl h
      · exact Or.inr ⟨hadd.1, rfl⟩
    · rintro (h | ⟨_, rfl⟩)
      · exact Or.inl h
      · exact Or.inr rfl
  · rw [if_neg hadd]
    rw [mem_dedupFirst]
    push_neg at hadd
    constructor
    · exact Or.inl
    · rintro (h | ⟨hne, rfl⟩)
      · exact h
      · exact mem_dedupFirst.mp (hadd hne)

theorem nodup_mergeWithNew (o : Option Str) (t : Str) : (mergeWithNew o t).Nodup := by
  rw [mergeWithNew]
  by_cases hadd : jsTrim t ≠ [] ∧ jsTrim t ∉ dedupFirst (parseSources o)
  · rw [if_pos hadd]
    refine List.nodup_append.mpr ⟨nodup_dedupFirst _, List.nodup_singleton _, ?_⟩
    intro x hx hx2
    rw [List.mem_singleton] at hx2
    subst hx2
    exact hadd.2 hx
  · rw [if_neg hadd]
    exact nodup_dedupFirst _

theorem tokens_mergeWithNew (o : Option Str) (t : Str) (hc : ',' ∉ t) :
    ∀ x ∈ mergeWithNew o t, isToken x := by
  intro x hx
  rcases (mem_mergeWithNew o t x).mp hx with h | ⟨hne, rfl⟩
  · exact parseSources_tokens o x h
  · exact ⟨hne, jsTrim_idem t, fun hm => hc ((jsTrim_sublist t).subset hm)⟩

/-- The parse of a sorted, joined, duplicate-free token set. -/
theorem sortJoinParse (W : List Str) (hnd : W.Nodup) (htok : ∀ x ∈ W, isToken x) :
    (parseSources (if joinComma (jsSortStrings W) = [] then none
        else some (joinComma (jsSortStrings W)))).Nodup ∧
    (parseSources (if joinComma (jsSortStrings W) = [] then none
        else some (joinComma (jsSortStrings W)))).Sorted sLe ∧
    (∀ x ∈ parseSources (if joinComma (jsSortStrings W) = [] then none
        else some (joinComma (jsSortStrings W))), isToken x) ∧
    (∀ s, s ∈ parseSources (if joinComma (jsSortStrings W) = [] then none
        else some (joinComma (jsSortStrings W))) ↔ s ∈ W) := by
  by_cases hW : W = []
  · subst hW
    have hL : parseSources (if joinComma (jsSortStrings ([] : List Str)) = [] then none
        else some (joinComma (jsSortStrings ([] : List Str)))) = [] := rfl
    rw [hL]
    refine ⟨List.nodup_nil, List.sorted_nil, by simp, by simp⟩
  · have hperm := List.perm_insertionSort sLe W
    have hsne : jsSortStrings W ≠ [] := by
      intro h
      have h' : W.insertionSort sLe = [] := h
      rw [h'] at hperm
      exact hW hperm.symm.eq_nil
    have hstok : ∀ x ∈ jsSortStrings W, isToken x := fun x hx =>
      htok x (hperm.subset hx)
    have hjoin_ne : joinComma (jsSortStrings W) ≠ [] :=
      joinComma_ne_nil hsne (fun x hx => (hstok x hx).1)
    rw [if_neg hjoin_ne]
    rw [parseSources_join hsne hstok]
    refine ⟨hperm.nodup_iff.mpr hnd, List.sorted_insertionSort sLe W, hstok,
      fun s => ⟨fun hs => hperm.subset hs, fun hs => hperm.mem_iff.mpr hs⟩⟩

/-- The full specification of one source merge: the parsed result is
duplicate-free, sorted, made of tokens, and is exactly the union of the
stored source set and the trimmed new source. -/
theorem mergeSources_spec (o : Option Str) (t : Str) (hc : ',' ∉ t) :
    (parseSources (mergeSources o (some t))).Nodup ∧
    (parseSources (mergeSources o (some t))).Sorted sLe ∧
    (∀ x ∈ parseSources (mergeSources o (some t)), isToken x) ∧
    (∀ s, s ∈ parseSources (mergeSources o (some t)) ↔
      (s ∈ parseSources o ∨ (jsTrim t ≠ [] ∧ s = jsTrim t))) := by
  rw [mergeSources_eq]
  obtain ⟨h1, h2, h3, h4⟩ :=
    sortJoinParse (mergeWithNew o t) (nodup_mergeWithNew o t) (tokens_mergeWithNew o t hc)
  exact ⟨h1, h2, h3, fun s => (h4 s).trans (mem_mergeWithNew o t s)⟩

theorem parseSources_token {s : Str} (h : isToken s) : parseSources (some s) = [s] := by
  rw [parseSources_some, splitComma_nocomma h.2.2]
  rw [List.map_cons, List.map_nil, h.2.1]
  rw [List.filter_cons]
  simp [h.1]

/-- One found-branch step on a singleton store. -/
theorem upsertJobPostSmart_singleton (nid : Nat) (row : JobPostRow) (rec : JobPostRecord)
    (h : row.finn_id = rec.finn_id) :
    upsertJobPostSmart nid [row] rec =
      ([{ row with source := mergeSources row.source rec.source }], row.id, false) := by
  have hfind : findRowByFinnId [row] rec.finn_id = some row := by
    simp [findRowByFinnId, List.find?_cons, h]
  simp [upsertJobPostSmart, hfind]

/-- The accumulation invariant of repeated ingestion of one `finn_id`
into a singleton store. -/
theorem ingestLoop_inv :
    ∀ (recs : List JobPostRecord) (f : Str) (row : JobPostRow) (nid : Nat),
      (∀ rec ∈ recs, rec.finn_id = f ∧
        ∃ s, rec.source = some s ∧ s ≠ [] ∧ jsTrim s = s ∧ ',' ∉ s) →
      row.finn_id = f →
      (parseSources row.source).Nodup →
      (∀ x ∈ parseSources row.source, isToken x) →
      ∃ row', ingestAll nid [row] recs = [row'] ∧ row'.finn_id = f ∧
        (parseSources row'.source).Nodup ∧
        (∀ x ∈ parseSources row'.source, isToken x) ∧
        (∀ s, s ∈ parseSources row'.source ↔
          (s ∈ parseSources row.source ∨ ∃ rec ∈ recs, rec.source = some s)) := by
  intro recs
  induction recs with
  | nil =>
    intro f row nid _ h1 h2 h3
    exact ⟨row, rfl, h1, h2, h3, fun s => by simp⟩
  | cons rec rest ih =>
    intro f row nid hrecs h1 h2 h3
    obtain ⟨hfid, s, hsrc, hs1, hs2, hs3⟩ := hrecs rec (List.mem_cons_self rec rest)
    have hstep := upsertJobPostSmart_singleton nid row rec (h1.trans hfid.symm)
    rw [ingestAll, hstep]
    have hmerge := mergeSources_spec row.source s hs3
    have hrow2id : ({ row with source := mergeSources row.source rec.source } : JobPostRow).finn_id = f := h1
    rw [hsrc] at hrow2id ⊢
    obtain ⟨row', hrow', hf', hnd', htok', hmem'⟩ :=
      ih f { row with source := mergeSources row.source (some s) } (nid + 1)
        (fun r hr => hrecs r (List.mem_cons_of_mem rec hr)) hrow2id hmerge.1 hmerge.2.2.1
    refine ⟨row', hrow', hf', hnd', htok', fun x => ?_⟩
    rw [hmem' x]
    have hx := hmerge.2.2.2 x
    rw [show ({ row with source := mergeSources row.source (some s) } : JobPostRow).source =
      mergeSources row.source (some s) from rfl] at hmem' ⊢
    constructor
    · rintro (hm | ⟨r, hr, hrs⟩)
      · rcases hx.mp hm with hm2 | ⟨_, rfl⟩
        · exact Or.inl hm2
        · rw [hs2]
          exact Or.inr ⟨rec, List.mem_cons_self rec rest, hsrc⟩
      · exact Or.inr ⟨r, List.mem_cons_of_mem rec hr, hrs⟩
    · rintro (hm | ⟨r, hr, hrs⟩)
      · exact Or.inl (hx.mpr (Or.inl hm))
      · rcases List.mem_cons.mp hr with rfl | hr
        · rw [hsrc] at hrs
          obtain rfl := Option.some.inj hrs
          refine Or.inl (hx.mpr (Or.inr ⟨?_, hs2.symm⟩))
          rw [hs2]
          exact hs1
        · exact Or.inr ⟨r, hr, hrs⟩

/-- C3: the found branch of `upsertJobPostSmart` rewrites only the
`source` column of the matched row (every other column and every other
row is untouched, and no row is added); one merge step produces the
deduplicated, lexicographically sorted, comma-joined union of the
stored source set and the trimmed new source; and re-ingesting one
`finn_id` any number of times in any order onto an empty store leaves
exactly one row whose parsed source set contains each distinct ingested
source exactly once. -/
theorem C3_upsertJobPostSmart_source_merge :
    (∀ (st : List JobPostRow) (rec : JobPostRecord) (nid : Nat) (r : JobPostRow),
      findRowByFinnId st rec.finn_id = some r →
      upsertJobPostSmart nid st rec =
        (st.map (fun x => if x.id = r.id
            then { x with source := mergeSources r.source rec.source } else x),
         r.id, false)) ∧
    (∀ (o : Option Str) (t : Str), ',' ∉ t →
      (parseSources (mergeSources o (some t))).Nodup ∧
      (parseSources (mergeSources o (some t))).Sorted sLe ∧
      (∀ s, s ∈ parseSources (mergeSources o (some t)) ↔
        (s ∈ parseSources o ∨ (jsTrim t ≠ [] ∧ s = jsTrim t)))) ∧
    (∀ (recs : List JobPostRecord) (f : Str) (nid : Nat),
      recs ≠ [] →
      (∀ rec ∈ recs, rec.finn_id = f ∧
        ∃ s, rec.source = some s ∧ s ≠ [] ∧ jsTrim s = s ∧ ',' ∉ s) →
      ∃ row, ingestAll nid [] recs = [row] ∧ row.finn_id = f ∧
        (parseSources row.source).Nodup ∧
        (∀ s, s ∈ parseSources row.source ↔ ∃ rec ∈ recs, rec.source = some s)) := by
  refine ⟨?_, ?_, ?_⟩
  · intro st rec nid r h
    simp [upsertJobPostSmart, h]
  · intro o t hc
    obtain ⟨h1, h2, _, h4⟩ := mergeSources_spec o t hc
    exact ⟨h1, h2, h4⟩
  · intro recs f nid hne hrecs
    cases recs with
    | nil => exact absurd rfl hne
    | cons rec rest =>
      obtain ⟨hfid, s, hsrc, hs1, hs2, hs3⟩ := hrecs rec (List.mem_cons_self rec rest)
      have hstep : (upsertJobPostSmart nid [] rec).1 = [rowOfRecord nid rec] := by
        simp [upsertJobPostSmart, findRowByFinnId]
      rw [ingestAll, hstep]
      have hrowsrc : (rowOfRecord nid rec).source = some s := by
        rw [show (rowOfRecord nid rec).source = rec.source from rfl, hsrc]
      have hparse : parseSources ((rowOfRecord nid rec).source) = [s] := by
        rw [hrowsrc]
        exact parseSources_token ⟨hs1, hs2, hs3⟩
      obtain ⟨row', hrow', hf', hnd', _, hmem'⟩ :=
        ingestLoop_inv rest f (rowOfRecord nid rec) (nid + 1)
          (fun r hr => hrecs r (List.mem_cons_of_mem rec hr))
          (show (rowOfRecord nid rec).finn_id = f from hfid)
          (by rw [hparse]; exact List.nodup_singleton s)
          (by rw [hparse]; intro x hx; rw [List.mem_singleton] at hx; subst hx
              exact ⟨hs1, hs2, hs3⟩)
      refine ⟨row', hrow', hf', hnd', fun x => ?_⟩
      rw [hmem' x, hparse]
      constructor
      · rintro (hm | ⟨r, hr, hrs⟩)
        · rw [List.mem_singleton] at hm
          subst hm
          exact ⟨rec, List.mem_cons_self rec rest, hsrc⟩
        · exact ⟨r, List.mem_cons_of_mem rec hr, hrs⟩
      · rintro ⟨r, hr, hrs⟩
        rcases List.mem_cons.mp hr with rfl | hr
        · rw [hsrc] at hrs
          obtain rfl := Option.some.inj hrs
          exact Or.inl (List.mem_singleton.mpr rfl)
        · exact Or.inr ⟨r, hr, hrs⟩

/-- C3 witness: ingesting sources `b`, `a`, `b` for one `finn_id` onto
an empty store leaves one row carrying each distinct source once. -/
theorem C3_witness :
    ∃ row, ingestAll 0 []
        [demoJobRecord ("b".toList), demoJobRecord ("a".toList), demoJobRecord ("b".toList)] =
        [row] ∧
      row.finn_id = "445216243".toList ∧ (parseSources row.source).Nodup ∧
      (∀ s, s ∈ parseSources row.source ↔
        ∃ rec ∈ [demoJobRecord ("b".toList), demoJobRecord ("a".toList),
          demoJobRecord ("b".toList)], rec.source = some s) :=
  C3_upsertJobPostSmart_source_merge.2.2
    [demoJobRecord ("b".toList), demoJobRecord ("a".toList), demoJobRecord ("b".toList)]
    ("445216243".toList) 0 (by decide)
    (by
      intro rec hrec
      rcases List.mem_cons.mp hrec with rfl | hrec
      · exact ⟨rfl, "b".toList, rfl, by decide, by decide, by decide⟩
      rcases List.mem_cons.mp hrec with rfl | hrec
      · exact ⟨rfl, "a".toList, rfl, by decide, by decide, by decide⟩
      rcases List.mem_cons.mp hrec with rfl | hrec
      · exact ⟨rfl, "b".toList, rfl, by decide, by decide, by decide⟩
      · exact absurd hrec (List.not_mem_nil rec))

set_option maxRecDepth 8000 in
/-- C4 counterexample: the existing company (matched via orgnr) has the
non-null location `Oslo`; the incoming record carries `Bergen`, and the
update overwrites the non-null stored value with the differing incoming
value — the found branch updates every truthy incoming field, not only
the fields that are currently null on the existing record. -/
theorem C4_upsertCompanySmart_overwrites :
    (upsertCompanySmart 1 [demoCompanyRow] demoCompanyRecord).2.2.2 = false ∧
    demoCompanyRow.location = some ("Oslo".toList) ∧
    demoCompanyRecord.location = some ("Bergen".toList) ∧
    ((upsertCompanySmart 1 [demoCompanyRow] demoCompanyRecord).1.map
      (fun r => r.location)) = [some ("Bergen".toList)] :=
  ⟨by decide, by decide, by decide, by decide⟩

/-- C4 (amended): when `findExistingCompany` finds an existing company,
`upsertCompanySmart` rewrites exactly the found row through the
truthy-field update and reports it as not new: the row count is
unchanged, the stored `company_key` is preserved, every field the
incoming record carries as null keeps its stored value (a non-null
stored field is never overwritten with null) — but a truthy incoming
field does overwrite a differing stored value, which is what the
original claim ruled out. -/
theorem C4_upsertCompanySmart_amended :
    (∀ (st : List CompanyRow) (rec : CompanyRecord) (nid id : Nat) (key : Str),
      findExistingCompany st rec.orgnr rec.domain rec.clean_domain (some rec.name) =
        some (id, key) →
      upsertCompanySmart nid st rec =
        (st.map (fun r => if r.id = id
            then applyCompanyUpdate rec (normalizeCompanyNameForMatching (some rec.name)) r
            else r), id, key, false)) ∧
    (∀ (rec : CompanyRecord) (cn : Option Str) (r : CompanyRow),
      (applyCompanyUpdate rec cn r).id = r.id ∧
      (applyCompanyUpdate rec cn r).company_key = r.company_key ∧
      (rec.domain = none → (applyCompanyUpdate rec cn r).domain = r.domain) ∧
      (rec.clean_domain = none → (applyCompanyUpdate rec cn r).clean_domain = r.clean_domain) ∧
      (rec.orgnr = none → (applyCompanyUpdate rec cn r).orgnr = r.orgnr) ∧
      (rec.proff_url = none → (applyCompanyUpdate rec cn r).proff_url = r.proff_url) ∧
      (rec.industry = none → (applyCompanyUpdate rec cn r).industry = r.industry) ∧
      (rec.company_size = none → (applyCompanyUpdate rec cn r).company_size = r.company_size) ∧
      (rec.location = none → (applyCompanyUpdate rec cn r).location = r.location) ∧
      (rec.sector = none → (applyCompanyUpdate rec cn r).sector = r.sector) ∧
      (r.domain ≠ none → (applyCompanyUpdate rec cn r).domain ≠ none) ∧
      (r.orgnr ≠ none → (applyCompanyUpdate rec cn r).orgnr ≠ none) ∧
      (r.location ≠ none → (applyCompanyUpdate rec cn r).location ≠ none)) := by
  constructor
  · intro st rec nid id key h
    simp [upsertCompanySmart, h]
  · intro rec cn r
    refine ⟨rfl, rfl, ?_, ?_, ?_, ?_, ?_, ?_, ?_, ?_, ?_, ?_, ?_⟩ <;>
      simp only [applyCompanyUpdate]
    · intro h; simp [h, jsTruthy]
    · intro h; simp [h, jsTruthy]
    · intro h; simp [h, jsTruthy]
    · intro h; simp [h, jsTruthy]
    · intro h; simp [h, jsTruthy]
    · intro h; simp [h, jsTruthy]
    · intro h; simp [h, jsTruthy]
    · intro h; simp [h, jsTruthy]
    · intro h
      split
      · rename_i hb
        cases hd : rec.domain with
        | none => rw [hd] at hb; simp [jsTruthy] at hb
        | some v => simp [hd]
      · exact h
    · intro h
      split
      · rename_i hb
        cases hd : rec.orgnr with
        | none => rw [hd] at hb; simp [jsTruthy] at hb
        | some v => simp [hd]
      · exact h
    · intro h
      split
      · rename_i hb
        cases hd : rec.location with
        | none => rw [hd] at hb; simp [jsTruthy] at hb
        | some v => simp [hd]
      · exact h

set_option maxRecDepth 8000 in
/-- C4 witness: the amended found-branch description at the concrete
fixture (match by orgnr, id 0, key `"123"`, reported as existing). -/
theorem C4_witness :
    (upsertCompanySmart 1 [demoCompanyRow] demoCompanyRecord).2 =
      (0, "123".toList, false) :=
  congrArg (fun x => x.2)
    (C4_upsertCompanySmart_amended.1 [demoCompanyRow] demoCompanyRecord 1 0
      ("123".toList) (by decide))
